import Mathlib

/-!
# compose-check-updates: the version selector and the image-reference splitter

A shallow embedding of `internal/version.go` (`FindLatestVersion`) and of
`internal/update_checker.go` (`getNameAndTag`), together with the parts of
the Go standard library (`strings`, `strconv`, `sort`) and of
`github.com/Masterminds/semver/v3` that these two functions call.

* Go strings are modelled as `String`; the library routines work on the
  character list of a string.  Every tag that reaches a comparison has passed
  one of the two semver parsers, so it is ASCII and the byte-wise order of Go
  coincides with the order on characters used here.
* `uint64` fields are `Nat`; the parsers reject every number that does not fit
  64 bits, as `strconv.ParseUint` does, and the selector only compares them.
* The semver library is a dependency, not part of the repository.  Its
  definitions follow the library source (v3.4.0 with the package defaults:
  `NewVersion` coerces), function by function.
* `sort.Slice` is not stable and its algorithm is not part of its interface,
  so the selector takes the sort as a parameter and the theorems assume only
  the documented contract (`SortSliceContract`).  The insertion sort that Go
  runs on short slices meets the contract and serves for concrete runs.
-/

namespace ComposeCheckUpdates

/-! ## Go standard library: `strings`, `strconv` -/

/-- Go `strings.SplitN(s, sep, n)` for a one-character separator and `n ≥ 0`:
at most `n` pieces, the last one being the unsplit remainder. -/
def SplitN (s : List Char) (sep : Char) : Nat → List (List Char)
  | 0 => []
  | 1 => [s]
  | n + 2 =>
    match s.span (fun c => c != sep) with
    | (a, []) => [a]
    | (a, _ :: rest) => a :: SplitN rest sep (n + 1)

/-- Go `strings.Split(s, sep)` for a one-character separator: all the pieces. -/
def Split : List Char → Char → List (List Char)
  | [], _ => [[]]
  | c :: cs, sep =>
    if c = sep then [] :: Split cs sep
    else
      match Split cs sep with
      | [] => [[c]]
      | p :: ps => (c :: p) :: ps

/-- Go `strings.Join(elems, sep)` for a one-character separator. -/
def Join : List (List Char) → Char → List Char
  | [], _ => []
  | [a], _ => a
  | a :: b :: rest, sep => a ++ sep :: Join (b :: rest) sep

/-- Go `strings.Contains(s, sep)` for a one-character `sep`. -/
def Contains (s : List Char) (sep : Char) : Bool :=
  s.any (fun c => c == sep)

/-- An ASCII decimal digit. -/
def isNum (c : Char) : Bool :=
  48 ≤ c.toNat && c.toNat ≤ 57

/-- Go `strconv.ParseUint(s, 10, 64)`: `none` stands for a non-nil error
(empty input, a character that is not a digit, or a value above `2^64 - 1`). -/
def ParseUint (s : List Char) : Option Nat :=
  if s = [] then none
  else if s.all isNum then
    let n := s.foldl (fun acc c => 10 * acc + (c.toNat - 48)) 0
    if n < 2 ^ 64 then some n else none
  else none

/-! ## `github.com/Masterminds/semver/v3` -/

/-- The library constant `num`. -/
def num : List Char := "0123456789".data

/-- The library constant `allowed`. -/
def allowed : List Char :=
  "abcdefghijklmnopqrstuvwxyzABCDEFGHIJKLMNOPQRSTUVWXYZ-".data ++ num

/-- The library helper `containsOnly(s, comp)`. -/
def containsOnly (s comp : List Char) : Bool :=
  s.all (fun r => comp.contains r)

/-- The library type `semver.Version`. -/
structure Version where
  major : Nat
  minor : Nat
  patch : Nat
  pre : String
  metadata : String
  original : String
deriving DecidableEq

/-- `Version.Major()`. -/
def Version.Major (v : Version) : Nat := v.major

/-- `Version.Minor()`. -/
def Version.Minor (v : Version) : Nat := v.minor

/-- `Version.Patch()`. -/
def Version.Patch (v : Version) : Nat := v.patch

/-- `Version.Prerelease()`. -/
def Version.Prerelease (v : Version) : String := v.pre

/-- `Version.Original()`. -/
def Version.Original (v : Version) : String := v.original

/-- The library function `validatePrerelease`; `true` stands for a nil error. -/
def validatePrerelease (p : List Char) : Bool :=
  (Split p '.').all (fun p =>
    if p = [] then false
    else if containsOnly p num then !(decide (p.length > 1) && p.head? == some '0')
    else containsOnly p allowed)

/-- The library function `validateMetadata`; `true` stands for a nil error. -/
def validateMetadata (m : List Char) : Bool :=
  (Split m '.').all (fun p =>
    if p = [] then false
    else containsOnly p allowed)

/-- The two extraction steps of `StrictNewVersion` ("Extract build metadata",
"Extract build prerelease"): when `part` contains `sep`, the pair
`(extra[1], extra[0])` of `extra := strings.SplitN(part, sep, 2)`; otherwise
nothing is extracted and `part` is left as it is. -/
def extract (part : List Char) (sep : Char) : List Char × List Char :=
  if Contains part sep then
    match SplitN part sep 2 with
    | [e0, e1] => (e1, e0)
    | _ => ([], part)
  else ([], part)

/-- The check of one number segment in `StrictNewVersion`: only digits, and
no leading zero; `true` stands for a segment that is refused. -/
def badSegment (p : List Char) : Bool :=
  !containsOnly p num || (decide (p.length > 1) && p.head? == some '0')

/-- `semver.StrictNewVersion`; `none` stands for a non-nil error. -/
def StrictNewVersion (v : String) : Option Version :=
  if v.data.length = 0 then none
  else
    match SplitN v.data '.' 3 with
    | [p0, p1, p2] =>
      -- Extract build metadata
      let m := extract p2 '+'
      if Contains p2 '+' && !validateMetadata m.1 then none
      else
        -- Extract build prerelease
        let p := extract m.2 '-'
        if Contains m.2 '-' && !validatePrerelease p.1 then none
        else if [p0, p1, p.2].any badSegment then none
        else
          match ParseUint p0, ParseUint p1, ParseUint p.2 with
          | some major, some minor, some patch =>
            some ⟨major, minor, patch, String.mk p.1, String.mk m.1, v⟩
          | _, _, _ => none
    | _ => none

/-- One identifier character of the version regular expression: `[0-9A-Za-z\-]`. -/
def isIdentChar (c : Char) : Bool :=
  isNum c || (65 ≤ c.toNat && c.toNat ≤ 90) || (97 ≤ c.toNat && c.toNat ≤ 122) || c == '-'

/-- The regular expression fragment `[0-9A-Za-z\-]+(\.[0-9A-Za-z\-]+)*`, matched
against a whole string. -/
def matchIdents (s : List Char) : Bool :=
  (Split s '.').all (fun p => p != [] && p.all isIdentChar)

/-- The regular expression fragment `(\.[0-9]+)?` at the start of `r`: the
matched text (dot included) and what follows it. -/
def matchDotNum (r : List Char) : List Char × List Char :=
  match r with
  | '.' :: t =>
    match t.span isNum with
    | ([], _) => ([], r)
    | (d, r') => ('.' :: d, r')
  | _ => ([], r)

/-- The regular expression fragment `v?` at the start of `v`: what follows
it. -/
def matchV (v : List Char) : List Char :=
  match v with
  | 'v' :: t => t
  | _ => v

/-- The anchored regular expression of the lenient parser,
`^v?([0-9]+)(\.[0-9]+)?(\.[0-9]+)?(-(ID(\.ID)*))?(\+(ID(\.ID)*))?$` with
`ID = [0-9A-Za-z\-]+`: the submatches 1, 2, 3, 5 and 8, or `none` when the
string does not match. -/
def looseVersionRegex (v : List Char) :
    Option (List Char × List Char × List Char × List Char × List Char) :=
  match (matchV v).span isNum with
  | ([], _) => none
  | (m1, r1) =>
    let (m2, r2) := matchDotNum r1
    let (m3, r3) := matchDotNum r2
    match r3 with
    | [] => some (m1, m2, m3, [], [])
    | '-' :: t =>
      match t.span (fun c => c != '+') with
      | (p, []) => if matchIdents p then some (m1, m2, m3, p, []) else none
      | (p, _ :: m) =>
        if matchIdents p && matchIdents m then some (m1, m2, m3, p, m) else none
    | '+' :: m => if matchIdents m then some (m1, m2, m3, [], m) else none
    | _ => none

/-- `semver.NewVersion` (the lenient, coercing parser); `none` stands for a
non-nil error. -/
def NewVersion (v : String) : Option Version :=
  match looseVersionRegex v.data with
  | none => none
  | some (m1, m2, m3, m5, m8) =>
    match ParseUint m1 with
    | none => none
    | some major =>
      match (if m2 ≠ [] then ParseUint (m2.drop 1) else some 0) with
      | none => none
      | some minor =>
        match (if m3 ≠ [] then ParseUint (m3.drop 1) else some 0) with
        | none => none
        | some patch =>
          if m5 ≠ [] && !validatePrerelease m5 then none
          else if m8 ≠ [] && !validateMetadata m8 then none
          else some ⟨major, minor, patch, String.mk m5, String.mk m8, v⟩

/-- The library function `compareSegment`. -/
def compareSegment (v o : Nat) : Int :=
  if v < o then -1
  else if v > o then 1
  else 0

/-- The library function `comparePrePart`. -/
def comparePrePart (s o : List Char) : Int :=
  if s = o then 0
  else if s = [] then (if o ≠ [] then -1 else 1)
  else if o = [] then (if s ≠ [] then 1 else -1)
  else
    match ParseUint o, ParseUint s with
    | none, none => if s > o then 1 else -1
    | none, some _ => -1
    | some _, none => 1
    | some oi, some si => if si > oi then 1 else -1

/-- The loop of the library function `comparePrerelease` once the parts of
the first version have run out: each remaining part of the second one is
compared with the empty placeholder. -/
def comparePrePartsDone : List (List Char) → Int
  | [] => 0
  | o :: os =>
    let d := comparePrePart [] o
    if d ≠ 0 then d else comparePrePartsDone os

/-- The loop of the library function `comparePrerelease` over the two lists
of dot-separated parts; a list that has run out supplies empty parts. -/
def comparePreParts : List (List Char) → List (List Char) → Int
  | [], os => comparePrePartsDone os
  | s :: ss, [] =>
    let d := comparePrePart s []
    if d ≠ 0 then d else comparePreParts ss []
  | s :: ss, o :: os =>
    let d := comparePrePart s o
    if d ≠ 0 then d else comparePreParts ss os

/-- The library function `comparePrerelease`. -/
def comparePrerelease (v o : List Char) : Int :=
  comparePreParts (Split v '.') (Split o '.')

/-- `Version.Compare`. -/
def Version.Compare (v o : Version) : Int :=
  let d := compareSegment v.Major o.Major
  if d ≠ 0 then d
  else
    let d := compareSegment v.Minor o.Minor
    if d ≠ 0 then d
    else
      let d := compareSegment v.Patch o.Patch
      if d ≠ 0 then d
      else
        let ps := v.pre
        let po := o.Prerelease
        if ps = "" ∧ po = "" then 0
        else if ps = "" then 1
        else if po = "" then -1
        else comparePrerelease ps.data po.data

/-- `Version.GreaterThan`. -/
def Version.GreaterThan (v o : Version) : Bool :=
  decide (v.Compare o > 0)

/-- `Version.LessThanEqual`. -/
def Version.LessThanEqual (v o : Version) : Bool :=
  decide (v.Compare o ≤ 0)

/-! ## `internal/version.go` -/

/-- The local type `VersionTag` of `FindLatestVersion`. -/
structure VersionTag where
  Version : Version
  Tag : String
deriving DecidableEq

/-- `isEqualMajor`. -/
def isEqualMajor (current tag : Version) : Bool :=
  current.Major == tag.Major

/-- `isEqualMinor`. -/
def isEqualMinor (current tag : Version) : Bool :=
  current.Minor == tag.Minor

/-- The test `len(strings.SplitN(current.Original(), ".", 3)) == 3`. -/
def currentIsStrict (current : Version) : Bool :=
  (SplitN current.Original.data '.' 3).length == 3

/-- The parse of one tag in the collecting loop: strict when the current
version is strict, lenient otherwise. -/
def parseTag (strict : Bool) (tag : String) : Option Version :=
  if strict then StrictNewVersion tag else NewVersion tag

/-- The collecting loop of `FindLatestVersion`: the tags that parse, in input
order, each with its version. -/
def collect (strict : Bool) : List String → List VersionTag
  | [] => []
  | tag :: tags =>
    match parseTag strict tag with
    | none => collect strict tags
    | some v => ⟨v, tag⟩ :: collect strict tags

/-- The body of the scanning loop of `FindLatestVersion` for one candidate,
with the flags as they stand after escalation: `true` when the candidate is
returned, `false` when the loop continues. -/
def accepts (current : Version) (major minor patch : Bool) (v : Version) : Bool :=
  if v.LessThanEqual current || v.Prerelease != current.Prerelease then false
  else if major && decide (v.Major > current.Major) then true
  else if minor && isEqualMajor v current && decide (v.Minor > current.Minor) then true
  else if patch && isEqualMajor v current && isEqualMinor v current
      && decide (v.Patch > current.Patch) then true
  else false

/-- The scanning loop of `FindLatestVersion` and the final `return ""`. -/
def scan (current : Version) (major minor patch : Bool) : List VersionTag → String
  | [] => ""
  | vt :: rest =>
    if accepts current major minor patch vt.Version then vt.Tag
    else scan current major minor patch rest

/-- The comparison handed to `sort.Slice`. -/
def less (a b : VersionTag) : Bool :=
  a.Version.GreaterThan b.Version

/-- `FindLatestVersion`.  The call of `sort.Slice` is the parameter
`sortSlice`: the Go library promises a sorted rearrangement and leaves the
order of equal elements open. -/
def FindLatestVersion
    (sortSlice : (VersionTag → VersionTag → Bool) → List VersionTag → List VersionTag)
    (current : Version) (tags : List String) (major minor patch : Bool) : String :=
  let minor := if major then true else minor
  let patch := if major then true else patch
  let patch := if minor then true else patch
  let versionTags := collect (currentIsStrict current) tags
  if versionTags.length = 0 then ""
  else scan current major minor patch (sortSlice less versionTags)

/-! ## Go standard library: `sort` -/

/-- The requirement of `sort.Interface.Less` on the elements of `xs`: a
transitive ordering whose "not less" is transitive as well, and in which no
element is less than itself. -/
def LessOK {α : Type} (lt : α → α → Bool) (xs : List α) : Prop :=
  (∀ a ∈ xs, lt a a = false) ∧
  (∀ a ∈ xs, ∀ b ∈ xs, ∀ c ∈ xs, lt a b = true → lt b c = true → lt a c = true) ∧
  (∀ a ∈ xs, ∀ b ∈ xs, ∀ c ∈ xs, lt a b = false → lt b c = false → lt a c = false)

/-- The contract of `sort.Slice`: the result is a rearrangement of the input,
and when `less` meets the requirement of `sort.Interface` no element is less
than one placed before it.  Nothing is promised about the order of elements
that compare equal. -/
def SortSliceContract {α : Type} (sortSlice : (α → α → Bool) → List α → List α) : Prop :=
  ∀ (lt : α → α → Bool) (xs : List α),
    (sortSlice lt xs).Perm xs ∧
    (LessOK lt xs → (sortSlice lt xs).Pairwise (fun a b => lt b a = false))

/-- One pass of the inner loop of Go's `insertionSort`: `x` moves towards the
front past every element it is less than.  `rev` is the sorted prefix, last
element first. -/
def insertBack {α : Type} (lt : α → α → Bool) (x : α) : List α → List α
  | [] => [x]
  | y :: ys => if lt x y then y :: insertBack lt x ys else x :: y :: ys

/-- The insertion sort that `sort.Slice` runs on slices of at most twelve
elements. -/
def insertionSort {α : Type} (lt : α → α → Bool) (xs : List α) : List α :=
  (xs.foldl (fun rev x => insertBack lt x rev) []).reverse

/-! ## `internal/update_checker.go` -/

/-- `UpdateChecker.getNameAndTag`. -/
def getNameAndTag (imageName : String) : String × String :=
  match Split imageName.data ':' with
  | [] => ("", "")
  | [p0] => (String.mk p0, "")
  | p0 :: p1 :: _ => (String.mk p0, String.mk p1)

/-! ## `internal/version_test.go` -/

/-- The harness of `TestFindLatestVersion`: the current tag goes through
`semver.NewVersion`, then the selector runs; `none` stands for a current tag
that does not parse. -/
def runTest (current : String) (tags : List String) (major minor patch : Bool) :
    Option String :=
  (NewVersion current).map
    (fun c => FindLatestVersion insertionSort c tags major minor patch)

/-! ## Specification-side predicates and the notions used in the proofs -/

/-- A three-way comparison that behaves as a total preorder on the elements
that satisfy `P`. -/
structure CmpOK {α : Type} (P : α → Prop) (c : α → α → Int) : Prop where
  range : ∀ a b, P a → P b → c a b = -1 ∨ c a b = 0 ∨ c a b = 1
  antisymm : ∀ a b, P a → P b → c a b = - c b a
  trans : ∀ a b d, P a → P b → P d → 0 ≤ c a b → 0 ≤ c b d →
    0 ≤ c a d ∧ (c a d = 0 → c a b = 0 ∧ c b d = 0)

/-- The numeric value of a digit character. -/
def digitVal (c : Char) : Nat := c.toNat - 48

/-- The decimal value of a digit string, as `ParseUint` accumulates it. -/
def decVal (s : List Char) : Nat := s.foldl (fun acc c => 10 * acc + (c.toNat - 48)) 0

/-- What `validatePrerelease` guarantees of each part: it is not empty, and
when it is all digits and longer than one character it does not begin with
`0`. -/
def SegOK (s : List Char) : Prop :=
  s ≠ [] ∧ (s.all isNum = true → 1 < s.length → s.head? ≠ some '0')

/-- The order `comparePrePart` puts on two distinct parts: numbers by value,
a number below every other part, the other parts as strings. -/
def partGT (s o : List Char) : Bool :=
  match ParseUint s, ParseUint o with
  | some si, some oi => decide (si > oi)
  | none, some _ => true
  | some _, none => false
  | none, none => decide (s > o)

/-- A list of pre-release parts as `validatePrerelease` leaves them. -/
def PartsOK (l : List (List Char)) : Prop := ∀ s ∈ l, SegOK s

/-- A pre-release string as the two parsers leave it: empty, or made of parts
that passed `validatePrerelease`. -/
def PreOK (p : String) : Prop := p ≠ "" → PartsOK (Split p.data '.')

/-- The tail of `Version.Compare`, once major, minor and patch are equal. -/
def comparePre (ps po : String) : Int :=
  if ps = "" ∧ po = "" then 0
  else if ps = "" then 1
  else if po = "" then -1
  else comparePrerelease ps.data po.data

/-- The fields of a version that `Version.Compare` reads. -/
def Version.key (v : Version) : Nat × Nat × Nat × String :=
  (v.major, v.minor, v.patch, v.pre)

/-- A non-empty string of decimal digits. -/
def Numeric (p : List Char) : Prop := p ≠ [] ∧ ∀ c ∈ p, isNum c = true

/-- The shape of a strict semantic version: exactly three numeric components
separated by dots, then nothing, a pre-release suffix or a build suffix. -/
def StrictShape (t : String) : Prop :=
  ∃ p0 p1 p2 rest : List Char, t.data = p0 ++ '.' :: (p1 ++ '.' :: (p2 ++ rest)) ∧
    Numeric p0 ∧ Numeric p1 ∧ Numeric p2 ∧
    (rest = [] ∨ rest.head? = some '-' ∨ rest.head? = some '+')

/-- The filters of the selector as the specification words them: the
candidate is strictly newer than `current`, carries the same pre-release
qualifier, and meets the accept condition of the escalated policy (`major`
implies `minor`, `minor` implies `patch`). -/
def Acceptable (current : Version) (major minor patch : Bool) (v : Version) : Prop :=
  v.Compare current > 0 ∧ v.Prerelease = current.Prerelease ∧
    ((major = true ∧ v.Major > current.Major) ∨
      ((major = true ∨ minor = true) ∧ v.Major = current.Major ∧ v.Minor > current.Minor) ∨
      ((major = true ∨ minor = true ∨ patch = true) ∧ v.Major = current.Major ∧
        v.Minor = current.Minor ∧ v.Patch > current.Patch))

/-- The text after the patch number of a strict version: the pre-release
suffix when there is one, then the build suffix when there is one. -/
def suffixText (pre meta : List Char) : List Char :=
  (if pre = [] then [] else '-' :: pre) ++ (if meta = [] then [] else '+' :: meta)

/-- The number of dots in a text. -/
def dots (s : String) : Nat := s.data.count '.'

/-! ## Proofs -/

theorem CmpOK.lex {α β : Type} {P : α → Prop} {Q : β → Prop}
    {c1 : α → α → Int} {c2 : β → β → Int} (h1 : CmpOK P c1) (h2 : CmpOK Q c2) :
    CmpOK (fun x : α × β => P x.1 ∧ Q x.2)
      (fun x y => if c1 x.1 y.1 ≠ 0 then c1 x.1 y.1 else c2 x.2 y.2) := by
  refine ⟨?_, ?_, ?_⟩
  · rintro ⟨a1, a2⟩ ⟨b1, b2⟩ ⟨pa, qa⟩ ⟨pb, qb⟩
    have r1 := h1.range a1 b1 pa pb
    have r2 := h2.range a2 b2 qa qb
    dsimp only
    split_ifs <;> omega
  · rintro ⟨a1, a2⟩ ⟨b1, b2⟩ ⟨pa, qa⟩ ⟨pb, qb⟩
    have r1 := h1.antisymm a1 b1 pa pb
    have r2 := h2.antisymm a2 b2 qa qb
    dsimp only
    split_ifs <;> omega
  · rintro ⟨a1, a2⟩ ⟨b1, b2⟩ ⟨d1, d2⟩ ⟨pa, qa⟩ ⟨pb, qb⟩ ⟨pd, qd⟩
    have rab := h1.range a1 b1 pa pb
    have rbd := h1.range b1 d1 pb pd
    have rad := h1.range a1 d1 pa pd
    have sab := h1.antisymm a1 b1 pa pb
    have sbd := h1.antisymm b1 d1 pb pd
    have sad := h1.antisymm a1 d1 pa pd
    have t1 := h1.trans a1 b1 d1 pa pb pd
    have t2 := h1.trans d1 b1 a1 pd pb pa
    have t3 := h2.trans a2 b2 d2 qa qb qd
    dsimp only
    split_ifs <;> omega

theorem CmpOK.comap {α β : Type} {P : α → Prop} {c : α → α → Int} (h : CmpOK P c)
    (f : β → α) : CmpOK (fun x => P (f x)) (fun x y => c (f x) (f y)) :=
  ⟨fun a b => h.range (f a) (f b), fun a b => h.antisymm (f a) (f b),
    fun a b d => h.trans (f a) (f b) (f d)⟩

theorem compareSegment_ok : CmpOK (fun _ : Nat => True) compareSegment := by
  refine ⟨?_, ?_, ?_⟩
  · intro a b _ _
    unfold compareSegment
    split_ifs <;> omega
  · intro a b _ _
    unfold compareSegment
    split_ifs <;> omega
  · intro a b d _ _ _
    unfold compareSegment
    split_ifs <;> omega

theorem foldl_dec (s : List Char) (acc : Nat) :
    s.foldl (fun acc c => 10 * acc + (c.toNat - 48)) acc
      = acc * 10 ^ s.length + Nat.ofDigits 10 (s.map digitVal).reverse := by
  induction s generalizing acc with
  | nil => simp
  | cons c s ih =>
    rw [List.foldl_cons, ih]
    simp only [List.map_cons, List.reverse_cons, List.length_cons, Nat.ofDigits_append,
      Nat.ofDigits_singleton, List.length_reverse, List.length_map, digitVal]
    ring

theorem decVal_eq (s : List Char) : decVal s = Nat.ofDigits 10 (s.map digitVal).reverse := by
  unfold decVal
  rw [foldl_dec]
  simp

theorem digitVal_lt {c : Char} (h : isNum c = true) : digitVal c < 10 := by
  simp only [isNum, Bool.and_eq_true, decide_eq_true_eq] at h
  unfold digitVal
  omega

theorem digitVal_inj {c e : Char} (hc : isNum c = true) (he : isNum e = true)
    (h : digitVal c = digitVal e) : c = e := by
  simp only [isNum, Bool.and_eq_true, decide_eq_true_eq] at hc he
  unfold digitVal at h
  have : c.toNat = e.toNat := by omega
  rw [← Char.ofNat_toNat c, ← Char.ofNat_toNat e, this]

theorem map_digitVal_inj : ∀ {s o : List Char}, s.all isNum = true → o.all isNum = true →
    s.map digitVal = o.map digitVal → s = o
  | [], [], _, _, _ => rfl
  | [], _ :: _, _, _, h => by simp at h
  | _ :: _, [], _, _, h => by simp at h
  | c :: s, e :: o, hs, ho, h => by
    simp only [List.all_cons, Bool.and_eq_true] at hs ho
    simp only [List.map_cons, List.cons.injEq] at h
    rw [digitVal_inj hs.1 ho.1 h.1, map_digitVal_inj hs.2 ho.2 h.2]

theorem digitVal_zero {c : Char} (hc : isNum c = true) (h : digitVal c = 0) : c = '0' :=
  digitVal_inj hc (by decide) (by rw [h]; decide)

/-- A digit string that does not begin with `0` is the decimal expansion of
its value. -/
theorem digits_decVal {c : Char} {s : List Char} (hall : (c :: s).all isNum = true)
    (hc : c ≠ '0') : Nat.digits 10 (decVal (c :: s)) = ((c :: s).map digitVal).reverse := by
  rw [decVal_eq]
  apply Nat.digits_ofDigits 10 (by norm_num)
  · intro l hl
    rw [List.mem_reverse, List.mem_map] at hl
    obtain ⟨x, hx, rfl⟩ := hl
    exact digitVal_lt (List.all_eq_true.mp hall x hx)
  · intro hne
    simp only [List.map_cons, List.reverse_cons, List.getLast_append_singleton]  at *
    intro h0
    simp only [List.all_cons, Bool.and_eq_true] at hall
    exact hc (digitVal_zero hall.1 h0)

theorem ParseUint_some {s : List Char} {n : Nat} (h : ParseUint s = some n) :
    s ≠ [] ∧ s.all isNum = true ∧ decVal s = n := by
  unfold ParseUint at h
  by_cases h1 : s = []
  · simp [h1] at h
  · by_cases h2 : s.all isNum = true
    · rw [if_neg h1, if_pos h2] at h
      dsimp only at h
      split_ifs at h
      exact ⟨h1, h2, Option.some.inj h⟩
    · rw [if_neg h1, if_neg h2] at h
      exact absurd h (by simp)

theorem canon_cases {s : List Char} (hs : SegOK s) (hall : s.all isNum = true) :
    s = ['0'] ∨ ∃ c t, s = c :: t ∧ c ≠ '0' := by
  obtain ⟨hne, hz⟩ := hs
  match s, hne with
  | c :: t, _ =>
    by_cases hc : c = '0'
    · subst hc
      cases t with
      | nil => exact Or.inl rfl
      | cons e t => exact absurd rfl (hz hall (by simp))
    · exact Or.inr ⟨c, t, rfl, hc⟩

theorem decVal_inj {s o : List Char} (hs : SegOK s) (ho : SegOK o)
    (hsn : s.all isNum = true) (hon : o.all isNum = true) (h : decVal s = decVal o) : s = o := by
  rcases canon_cases hs hsn with rfl | ⟨c, t, rfl, hc⟩ <;>
    rcases canon_cases ho hon with rfl | ⟨e, u, rfl, he⟩
  · rfl
  · have hd := digits_decVal hon he
    rw [← h] at hd
    simp [decVal] at hd
  · have hd := digits_decVal hsn hc
    rw [h] at hd
    simp [decVal] at hd
  · have h1 := digits_decVal hsn hc
    have h2 := digits_decVal hon he
    rw [h] at h1
    exact map_digitVal_inj hsn hon (List.reverse_injective (h1.symm.trans h2))

theorem ParseUint_inj {s o : List Char} {n : Nat} (hs : SegOK s) (ho : SegOK o)
    (h1 : ParseUint s = some n) (h2 : ParseUint o = some n) : s = o := by
  obtain ⟨_, a1, v1⟩ := ParseUint_some h1
  obtain ⟨_, a2, v2⟩ := ParseUint_some h2
  exact decVal_inj hs ho a1 a2 (v1.trans v2.symm)

theorem comparePrePart_eq {s o : List Char} (hs : s ≠ []) (ho : o ≠ []) :
    comparePrePart s o = if s = o then 0 else if partGT s o = true then 1 else -1 := by
  unfold comparePrePart partGT
  by_cases h : s = o
  · simp [h]
  · rw [if_neg h, if_neg hs, if_neg ho, if_neg h]
    generalize ParseUint s = ps
    generalize ParseUint o = po
    rcases ps with _ | x <;> rcases po with _ | y <;> simp

theorem partGT_trans {a b d : List Char} (h1 : partGT a b = true) (h2 : partGT b d = true) :
    partGT a d = true := by
  unfold partGT at h1 h2 ⊢
  generalize ParseUint a = pa at h1 h2 ⊢
  generalize ParseUint b = pb at h1 h2 ⊢
  generalize ParseUint d = pd at h1 h2 ⊢
  rcases pa with _ | x <;> rcases pb with _ | y <;> rcases pd with _ | z <;>
    simp only [decide_eq_true_eq] at h1 h2 ⊢ <;>
    first
      | exact lt_trans h2 h1
      | contradiction

theorem partGT_asymm {a b : List Char} (h1 : partGT a b = true) (h2 : partGT b a = true) :
    False := by
  unfold partGT at h1 h2
  generalize ParseUint a = pa at h1 h2
  generalize ParseUint b = pb at h1 h2
  rcases pa with _ | x <;> rcases pb with _ | y <;>
    simp only [decide_eq_true_eq] at h1 h2 <;>
    first
      | exact lt_asymm h1 h2
      | contradiction

theorem partGT_total {a b : List Char} (ha : SegOK a) (hb : SegOK b) (hne : a ≠ b) :
    partGT a b = true ∨ partGT b a = true := by
  unfold partGT
  rcases h1 : ParseUint a with _ | x <;> rcases h2 : ParseUint b with _ | y <;>
    simp only [decide_eq_true_eq]
  · rcases lt_trichotomy a b with h | h | h
    · exact Or.inr h
    · exact absurd h hne
    · exact Or.inl h
  · exact Or.inl trivial
  · exact Or.inr trivial
  · rcases lt_trichotomy x y with h | h | h
    · exact Or.inr h
    · subst h
      exact absurd (ParseUint_inj ha hb h1 h2) hne
    · exact Or.inl h

theorem comparePrePart_ok : CmpOK SegOK comparePrePart := by
  refine ⟨?_, ?_, ?_⟩
  · intro a b ha hb
    rw [comparePrePart_eq ha.1 hb.1]
    split_ifs <;> simp
  · intro a b ha hb
    rw [comparePrePart_eq ha.1 hb.1, comparePrePart_eq hb.1 ha.1]
    by_cases h : a = b
    · simp [h]
    · have h' : ¬ b = a := fun e => h e.symm
      rw [if_neg h, if_neg h']
      rcases partGT_total ha hb h with g | g
      · have g' : ¬ partGT b a = true := fun x => partGT_asymm g x
        rw [if_pos g, if_neg g']
        rfl
      · have g' : ¬ partGT a b = true := fun x => partGT_asymm x g
        rw [if_pos g, if_neg g']
  · intro a b d ha hb hd
    rw [comparePrePart_eq ha.1 hb.1, comparePrePart_eq hb.1 hd.1, comparePrePart_eq ha.1 hd.1]
    intro h1 h2
    by_cases hab : a = b
    · subst hab
      by_cases had : a = d
      · simp [had]
      · rw [if_neg had] at h2 ⊢
        rw [if_pos rfl]
        refine ⟨h2, ?_⟩
        intro h
        split_ifs at h
        omega
    · rw [if_neg hab] at h1
      have gab : partGT a b = true := by
        by_contra g
        rw [if_neg g] at h1
        omega
      by_cases hbd : b = d
      · subst hbd
        rw [if_neg hab, if_pos gab, if_pos rfl]
        simp
      · rw [if_neg hbd] at h2
        have gbd : partGT b d = true := by
          by_contra g
          rw [if_neg g] at h2
          omega
        have gad := partGT_trans gab gbd
        have had : a ≠ d := by
          rintro rfl
          exact partGT_asymm gab gbd
        rw [if_neg had, if_pos gad]
        simp

theorem comparePrePart_nil_left {o : List Char} (ho : o ≠ []) : comparePrePart [] o = -1 := by
  unfold comparePrePart
  have : ¬ ([] : List Char) = o := fun e => ho e.symm
  simp [this, ho]

theorem comparePrePart_nil_right {s : List Char} (hs : s ≠ []) : comparePrePart s [] = 1 := by
  unfold comparePrePart
  simp [hs]

theorem comparePreParts_cons_nil {s : List Char} {ss : List (List Char)} (hs : s ≠ []) :
    comparePreParts (s :: ss) [] = 1 := by
  simp [comparePreParts, comparePrePart_nil_right hs]

theorem comparePreParts_nil_cons {o : List Char} {os : List (List Char)} (ho : o ≠ []) :
    comparePreParts [] (o :: os) = -1 := by
  simp [comparePreParts, comparePrePartsDone, comparePrePart_nil_left ho]

theorem comparePreParts_cons_cons (s o : List Char) (ss os : List (List Char)) :
    comparePreParts (s :: ss) (o :: os)
      = if comparePrePart s o ≠ 0 then comparePrePart s o else comparePreParts ss os := by
  simp [comparePreParts, comparePrePartsDone]

theorem comparePreParts_ok : CmpOK PartsOK comparePreParts := by
  have hr : ∀ a b, PartsOK a → PartsOK b →
      comparePreParts a b = -1 ∨ comparePreParts a b = 0 ∨ comparePreParts a b = 1 := by
    intro a
    induction a with
    | nil =>
      intro b _ hb
      cases b with
      | nil => simp [comparePreParts, comparePrePartsDone]
      | cons o os => simp [comparePreParts_nil_cons (hb o (by simp)).1]
    | cons s ss ih =>
      intro b ha hb
      cases b with
      | nil => simp [comparePreParts_cons_nil (ha s (by simp)).1]
      | cons o os =>
        rw [comparePreParts_cons_cons]
        have r1 := comparePrePart_ok.range s o (ha s (by simp)) (hb o (by simp))
        have r2 := ih os (fun x hx => ha x (by simp [hx])) (fun x hx => hb x (by simp [hx]))
        split_ifs <;> omega
  have hs : ∀ a b, PartsOK a → PartsOK b → comparePreParts a b = - comparePreParts b a := by
    intro a
    induction a with
    | nil =>
      intro b _ hb
      cases b with
      | nil => simp [comparePreParts, comparePrePartsDone]
      | cons o os =>
        simp [comparePreParts_nil_cons (hb o (by simp)).1,
          comparePreParts_cons_nil (hb o (by simp)).1]
    | cons s ss ih =>
      intro b ha hb
      cases b with
      | nil =>
        simp [comparePreParts_nil_cons (ha s (by simp)).1,
          comparePreParts_cons_nil (ha s (by simp)).1]
      | cons o os =>
        rw [comparePreParts_cons_cons, comparePreParts_cons_cons]
        have r1 := comparePrePart_ok.antisymm s o (ha s (by simp)) (hb o (by simp))
        have r2 := ih os (fun x hx => ha x (by simp [hx])) (fun x hx => hb x (by simp [hx]))
        split_ifs <;> omega
  refine ⟨hr, hs, ?_⟩
  intro a
  induction a with
  | nil =>
    intro b d _ hb hd
    cases b with
    | nil =>
      cases d with
      | nil => simp [comparePreParts, comparePrePartsDone]
      | cons e es => simp [comparePreParts_nil_cons (hd e (by simp)).1]
    | cons o os => simp [comparePreParts_nil_cons (hb o (by simp)).1]
  | cons s ss ih =>
    intro b d ha hb hd
    cases b with
    | nil =>
      cases d with
      | nil =>
        simp [comparePreParts, comparePrePartsDone,
          comparePreParts_cons_nil (ha s (by simp)).1]
      | cons e es => simp [comparePreParts_nil_cons (hd e (by simp)).1]
    | cons o os =>
      cases d with
      | nil =>
        simp [comparePreParts_cons_nil (ha s (by simp)).1,
          comparePreParts_cons_nil (hb o (by simp)).1]
      | cons e es =>
        have pa := ha s (by simp)
        have pb := hb o (by simp)
        have pd := hd e (by simp)
        have qa : PartsOK ss := fun x hx => ha x (by simp [hx])
        have qb : PartsOK os := fun x hx => hb x (by simp [hx])
        have qd : PartsOK es := fun x hx => hd x (by simp [hx])
        rw [comparePreParts_cons_cons, comparePreParts_cons_cons, comparePreParts_cons_cons]
        have rab := comparePrePart_ok.range s o pa pb
        have rbd := comparePrePart_ok.range o e pb pd
        have rad := comparePrePart_ok.range s e pa pd
        have sab := comparePrePart_ok.antisymm s o pa pb
        have sbd := comparePrePart_ok.antisymm o e pb pd
        have sad := comparePrePart_ok.antisymm s e pa pd
        have t1 := comparePrePart_ok.trans s o e pa pb pd
        have t2 := comparePrePart_ok.trans e o s pd pb pa
        have t3 := ih os es qa qb qd
        split_ifs <;> omega

theorem CmpOK.mono {α : Type} {P Q : α → Prop} {c e : α → α → Int} (h : CmpOK P c)
    (hpq : ∀ a, Q a → P a) (hce : ∀ a b, e a b = c a b) : CmpOK Q e := by
  refine ⟨?_, ?_, ?_⟩
  · intro a b qa qb
    rw [hce]
    exact h.range a b (hpq a qa) (hpq b qb)
  · intro a b qa qb
    rw [hce, hce]
    exact h.antisymm a b (hpq a qa) (hpq b qb)
  · intro a b d qa qb qd
    rw [hce, hce, hce]
    exact h.trans a b d (hpq a qa) (hpq b qb) (hpq d qd)

theorem comparePre_ok : CmpOK PreOK comparePre := by
  refine ⟨?_, ?_, ?_⟩
  · intro a b ha hb
    unfold comparePre comparePrerelease
    by_cases h1 : a = "" <;> by_cases h2 : b = "" <;> simp only [h1, h2, and_self, and_false,
      false_and, if_true, if_false] <;> try simp
    exact comparePreParts_ok.range _ _ (ha h1) (hb h2)
  · intro a b ha hb
    unfold comparePre comparePrerelease
    by_cases h1 : a = "" <;> by_cases h2 : b = "" <;> simp only [h1, h2, and_self, and_false,
      false_and, if_true, if_false] <;> try simp
    exact comparePreParts_ok.antisymm _ _ (ha h1) (hb h2)
  · intro a b d ha hb hd
    unfold comparePre comparePrerelease
    by_cases h1 : a = "" <;> by_cases h2 : b = "" <;> by_cases h3 : d = "" <;>
      simp only [h1, h2, h3, and_self, and_false, false_and, if_true, if_false] <;> try simp
    exact comparePreParts_ok.trans _ _ _ (ha h1) (hb h2) (hd h3)

theorem Version.Compare_ok : CmpOK (fun v : Version => PreOK v.pre) Version.Compare := by
  have h := (CmpOK.lex compareSegment_ok (CmpOK.lex compareSegment_ok
    (CmpOK.lex compareSegment_ok comparePre_ok))).comap Version.key
  refine h.mono ?_ ?_
  · intro a ha
    exact ⟨trivial, trivial, trivial, ha⟩
  · intro a b
    rfl

theorem isNum_of_mem_num {c : Char} (h : c ∈ num) : isNum c = true := by
  simp only [num, List.mem_cons, List.mem_singleton, List.not_mem_nil, or_false] at h
  rcases h with h | h | h | h | h | h | h | h | h | h <;> subst h <;> decide

theorem mem_num_of_isNum {c : Char} (h : isNum c = true) : c ∈ num := by
  simp only [isNum, Bool.and_eq_true, decide_eq_true_eq] at h
  obtain ⟨h1, h2⟩ := h
  rw [← Char.ofNat_toNat c]
  generalize c.toNat = n at h1 h2
  interval_cases n <;> decide

theorem num_contains (c : Char) : num.contains c = isNum c := by
  by_cases h : isNum c = true
  · rw [h]
    simpa using mem_num_of_isNum h
  · have hm : ¬ c ∈ num := fun m => h (isNum_of_mem_num m)
    rw [Bool.not_eq_true] at h
    rw [h]
    simpa using hm

theorem containsOnly_num (s : List Char) : containsOnly s num = s.all isNum := by
  unfold containsOnly
  induction s with
  | nil => rfl
  | cons c s ih => simp only [List.all_cons, ih, num_contains]

theorem validatePrerelease_parts {p : List Char} (h : validatePrerelease p = true) :
    PartsOK (Split p '.') := by
  intro s hs
  unfold validatePrerelease at h
  have h' := List.all_eq_true.mp h s hs
  by_cases h1 : s = []
  · simp [h1] at h'
  · refine ⟨h1, ?_⟩
    intro hall hlen hhead
    rw [if_neg h1, containsOnly_num, if_pos hall] at h'
    simp [hlen, hhead] at h'

theorem preOK_mk {p : List Char} (h : p ≠ [] → validatePrerelease p = true) :
    PreOK (String.mk p) := by
  intro hne
  apply validatePrerelease_parts
  apply h
  rintro rfl
  exact hne rfl

theorem NewVersion_preOK {t : String} {v : Version} (h : NewVersion t = some v) : PreOK v.pre := by
  unfold NewVersion at h
  split at h
  · exact absurd h (by simp)
  · split at h
    · exact absurd h (by simp)
    · split at h
      · exact absurd h (by simp)
      · split at h
        · exact absurd h (by simp)
        · split_ifs at h with h1 h2
          simp only [Option.some.injEq] at h
          subst h
          apply preOK_mk
          intro hne
          simpa [hne] using h1

theorem NewVersion_original {t : String} {v : Version} (h : NewVersion t = some v) :
    v.original = t := by
  unfold NewVersion at h
  split at h
  · exact absurd h (by simp)
  · split at h
    · exact absurd h (by simp)
    · split at h
      · exact absurd h (by simp)
      · split at h
        · exact absurd h (by simp)
        · split_ifs at h with h1 h2
          simp only [Option.some.injEq] at h
          subst h
          rfl

theorem span_append {p : Char → Bool} (s : List Char) {a b : List Char}
    (h : s.span p = (a, b)) : s = a ++ b := by
  have := List.span_eq_take_drop p s
  rw [h] at this
  simp only [Prod.mk.injEq] at this
  rw [this.1, this.2]
  exact (List.takeWhile_append_dropWhile p s).symm

theorem span_head {p : Char → Bool} (s : List Char) {a rest : List Char} {c : Char}
    (h : s.span p = (a, c :: rest)) : p c = false := by
  have := List.span_eq_take_drop p s
  rw [h] at this
  simp only [Prod.mk.injEq] at this
  have h2 := this.2
  have := List.head_dropWhile_not p s (by rw [← h2]; simp)
  simpa [← h2] using this

theorem SplitN_ne_nil (sep : Char) (n : Nat) (s : List Char) : SplitN s sep (n + 1) ≠ [] := by
  cases n with
  | zero => simp [SplitN]
  | succ n =>
    unfold SplitN
    split <;> simp

theorem SplitN_join (sep : Char) : ∀ (n : Nat) (s : List Char),
    Join (SplitN s sep (n + 1)) sep = s
  | 0, s => by simp [SplitN, Join]
  | n + 1, s => by
    unfold SplitN
    split
    · rename_i a h
      have := span_append s h
      simp [Join, this]
    · rename_i a c rest h
      have hs := span_append s h
      have hc : c = sep := by simpa using span_head s h
      have ih := SplitN_join sep n rest
      have hne := SplitN_ne_nil sep n rest
      subst hc
      match hL : SplitN rest c (n + 1), hne with
      | b :: l, _ =>
        rw [hL] at ih
        rw [Join, ih, hs]

theorem Split_ne_nil (sep : Char) (s : List Char) : Split s sep ≠ [] := by
  cases s with
  | nil => simp [Split]
  | cons c s =>
    unfold Split
    split_ifs
    · simp
    · split <;> simp

theorem Split_join (sep : Char) : ∀ s : List Char, Join (Split s sep) sep = s
  | [] => by simp [Split, Join]
  | c :: s => by
    have ih := Split_join sep s
    have hne := Split_ne_nil sep s
    unfold Split
    split_ifs with h
    · subst h
      match hL : Split s c, hne with
      | b :: l, _ =>
        rw [hL] at ih
        rw [Join, ih]
        rfl
    · match hL : Split s sep, hne with
      | [b], _ =>
        rw [hL] at ih
        simp only [Join] at ih ⊢
        rw [ih]
      | b :: b2 :: l, _ =>
        rw [hL] at ih
        simp only [Join] at ih ⊢
        rw [← ih]
        rfl

theorem extract_spec (part : List Char) (sep : Char) :
    ((extract part sep).1 = [] ∧ (extract part sep).2 = part) ∨
      part = (extract part sep).2 ++ sep :: (extract part sep).1 := by
  unfold extract
  split_ifs with h
  · split
    · rename_i e0 e1 hs
      right
      have := SplitN_join sep 1 part
      rw [hs] at this
      simpa [Join] using this.symm
    · left
      exact ⟨rfl, rfl⟩
  · left
    exact ⟨rfl, rfl⟩

theorem extract_twice (p2 : List Char) :
    ∃ rest : List Char, p2 = (extract (extract p2 '+').2 '-').2 ++ rest ∧
      (rest = [] ∨ rest.head? = some '-' ∨ rest.head? = some '+') := by
  rcases extract_spec p2 '+' with ⟨_, e1⟩ | e1 <;>
    rcases extract_spec (extract p2 '+').2 '-' with ⟨_, e2⟩ | e2
  · exact ⟨[], by rw [e2, e1]; simp, Or.inl rfl⟩
  · exact ⟨'-' :: (extract (extract p2 '+').2 '-').1, by rw [← e2, e1], Or.inr (Or.inl rfl)⟩
  · exact ⟨'+' :: (extract p2 '+').1, by rw [e2]; exact e1, Or.inr (Or.inr rfl)⟩
  · refine ⟨'-' :: (extract (extract p2 '+').2 '-').1 ++ '+' :: (extract p2 '+').1, ?_,
      Or.inr (Or.inl rfl)⟩
    calc p2 = (extract p2 '+').2 ++ '+' :: (extract p2 '+').1 := e1
      _ = ((extract (extract p2 '+').2 '-').2 ++ '-' :: (extract (extract p2 '+').2 '-').1)
            ++ '+' :: (extract p2 '+').1 := by rw [← e2]
      _ = _ := by simp

theorem ParseUint_numeric {p : List Char} {n : Nat} (h : ParseUint p = some n) : Numeric p := by
  obtain ⟨h1, h2, _⟩ := ParseUint_some h
  exact ⟨h1, fun c hc => List.all_eq_true.mp h2 c hc⟩

theorem StrictNewVersion_some {t : String} {v : Version} (h : StrictNewVersion t = some v) :
    PreOK v.pre ∧ v.original = t ∧ StrictShape t := by
  unfold StrictNewVersion at h
  split_ifs at h with h0
  split at h
  · rename_i p0 p1 p2 hsplit
    dsimp only at h
    split_ifs at h with hm hp hb
    split at h
    · rename_i major minor patch h1 h2 h3
      simp only [Option.some.injEq] at h
      subst h
      refine ⟨?_, rfl, ?_⟩
      · apply preOK_mk
        intro hne
        rcases extract_spec (extract p2 '+').2 '-' with ⟨e, _⟩ | e
        · exact absurd e hne
        · have hc : Contains (extract p2 '+').2 '-' = true := by
            rw [e]
            simp [Contains]
          simpa [hc] using hp
      · have hj := SplitN_join '.' 2 t.data
        rw [hsplit] at hj
        simp only [Join] at hj
        obtain ⟨rest, hrest, hhead⟩ := extract_twice p2
        refine ⟨p0, p1, (extract (extract p2 '+').2 '-').2, rest, ?_, ParseUint_numeric h1,
          ParseUint_numeric h2, ParseUint_numeric h3, hhead⟩
        rw [← hrest, hj]
    · exact absurd h (by simp)
  · exact absurd h (by simp)

/-! ### The insertion sort meets the contract of `sort.Slice` -/

theorem insertBack_perm {α : Type} (lt : α → α → Bool) (x : α) :
    ∀ l : List α, (insertBack lt x l).Perm (x :: l)
  | [] => List.Perm.refl _
  | y :: ys => by
    unfold insertBack
    split_ifs
    · exact ((insertBack_perm lt x ys).cons y).trans (List.Perm.swap x y ys)
    · exact List.Perm.refl _

theorem foldl_insertBack_perm {α : Type} (lt : α → α → Bool) :
    ∀ (xs acc : List α), (xs.foldl (fun rev x => insertBack lt x rev) acc).Perm (xs ++ acc)
  | [], acc => List.Perm.refl _
  | x :: xs, acc => by
    rw [List.foldl_cons]
    refine (foldl_insertBack_perm lt xs _).trans ?_
    refine ((insertBack_perm lt x acc).append_left xs).trans ?_
    exact List.perm_middle

theorem insertBack_pairwise {α : Type} {lt : α → α → Bool} {S : List α} (hok : LessOK lt S)
    {x : α} (hx : x ∈ S) :
    ∀ {l : List α}, (∀ a ∈ l, a ∈ S) → l.Pairwise (fun a b => lt a b = false) →
      (insertBack lt x l).Pairwise (fun a b => lt a b = false)
  | [], _, _ => by simp [insertBack]
  | y :: ys, hS, hp => by
    obtain ⟨hirr, htr, hntr⟩ := hok
    have hy : y ∈ S := hS y (by simp)
    have hys : ∀ a ∈ ys, a ∈ S := fun a ha => hS a (by simp [ha])
    rw [List.pairwise_cons] at hp
    unfold insertBack
    split_ifs with h
    · rw [List.pairwise_cons]
      refine ⟨?_, insertBack_pairwise ⟨hirr, htr, hntr⟩ hx hys hp.2⟩
      intro w hw
      rcases (List.mem_cons.mp ((insertBack_perm lt x ys).mem_iff.mp hw)) with rfl | hw
      · by_contra hc
        rw [Bool.not_eq_false] at hc
        have := htr w hx y hy w hx h hc
        rw [hirr w hx] at this
        exact absurd this (by simp)
      · exact hp.1 w hw
    · rw [Bool.not_eq_true] at h
      rw [List.pairwise_cons]
      refine ⟨?_, List.pairwise_cons.mpr hp⟩
      intro w hw
      rcases List.mem_cons.mp hw with rfl | hw
      · exact h
      · exact hntr x hx y hy w (hys w hw) h (hp.1 w hw)

theorem foldl_insertBack_pairwise {α : Type} {lt : α → α → Bool} {S : List α}
    (hok : LessOK lt S) :
    ∀ (xs acc : List α), (∀ a ∈ xs, a ∈ S) → (∀ a ∈ acc, a ∈ S) →
      acc.Pairwise (fun a b => lt a b = false) →
      (xs.foldl (fun rev x => insertBack lt x rev) acc).Pairwise (fun a b => lt a b = false)
  | [], _, _, _, hp => hp
  | x :: xs, acc, hxs, hacc, hp => by
    rw [List.foldl_cons]
    have hx : x ∈ S := hxs x (by simp)
    apply foldl_insertBack_pairwise hok xs _ (fun a ha => hxs a (by simp [ha]))
    · intro a ha
      rcases List.mem_cons.mp ((insertBack_perm lt x acc).mem_iff.mp ha) with rfl | ha
      · exact hx
      · exact hacc a ha
    · exact insertBack_pairwise hok hx hacc hp

theorem insertionSort_contract {α : Type} :
    SortSliceContract (insertionSort : (α → α → Bool) → List α → List α) := by
  intro lt xs
  constructor
  · unfold insertionSort
    refine (List.reverse_perm _).trans ?_
    simpa using foldl_insertBack_perm lt xs []
  · intro hok
    unfold insertionSort
    rw [List.pairwise_reverse]
    exact foldl_insertBack_pairwise hok xs [] (fun a ha => ha) (by simp) List.Pairwise.nil

/-! ### The comparison handed to `sort.Slice` is a proper ordering of parsed tags -/

theorem parseTag_preOK {strict : Bool} {t : String} {v : Version}
    (h : parseTag strict t = some v) : PreOK v.pre := by
  unfold parseTag at h
  split_ifs at h
  · exact (StrictNewVersion_some h).1
  · exact NewVersion_preOK h

theorem parseTag_ne_empty {strict : Bool} {t : String} {v : Version}
    (h : parseTag strict t = some v) : t ≠ "" := by
  rintro rfl
  have h0 : ∀ b : Bool, parseTag b "" = none := by decide
  rw [h0] at h
  exact absurd h (by simp)

theorem mem_collect {strict : Bool} {vt : VersionTag} :
    ∀ {tags : List String}, vt ∈ collect strict tags ↔
      vt.Tag ∈ tags ∧ parseTag strict vt.Tag = some vt.Version
  | [] => by simp [collect]
  | t :: tags => by
    have ih := @mem_collect strict vt tags
    unfold collect
    split
    · rename_i hnone
      rw [ih, List.mem_cons]
      constructor
      · rintro ⟨h1, h2⟩
        exact ⟨Or.inr h1, h2⟩
      · rintro ⟨h1 | h1, h2⟩
        · rw [h1, hnone] at h2
          exact absurd h2 (by simp)
        · exact ⟨h1, h2⟩
    · rename_i v hsome
      rw [List.mem_cons, ih, List.mem_cons]
      constructor
      · rintro (h | ⟨h1, h2⟩)
        · subst h
          exact ⟨Or.inl rfl, hsome⟩
        · exact ⟨Or.inr h1, h2⟩
      · rintro ⟨h1 | h1, h2⟩
        · left
          rw [h1, hsome] at h2
          cases vt
          simp only [Option.some.injEq] at h2
          simp only at h1
          subst h1 h2
          rfl
        · exact Or.inr ⟨h1, h2⟩

theorem collect_preOK {strict : Bool} {tags : List String} {vt : VersionTag}
    (h : vt ∈ collect strict tags) : PreOK vt.Version.pre :=
  parseTag_preOK (mem_collect.mp h).2

theorem GreaterThan_irrefl {a : Version} (ha : PreOK a.pre) : a.GreaterThan a = false := by
  have := Version.Compare_ok.antisymm a a ha ha
  unfold Version.GreaterThan
  simp only [decide_eq_false_iff_not]
  omega

theorem GreaterThan_trans {a b d : Version} (ha : PreOK a.pre) (hb : PreOK b.pre)
    (hd : PreOK d.pre) (h1 : a.GreaterThan b = true) (h2 : b.GreaterThan d = true) :
    a.GreaterThan d = true := by
  have t := Version.Compare_ok.trans a b d ha hb hd
  unfold Version.GreaterThan at *
  simp only [decide_eq_true_eq] at *
  omega

theorem GreaterThan_negtrans {a b d : Version} (ha : PreOK a.pre) (hb : PreOK b.pre)
    (hd : PreOK d.pre) (h1 : a.GreaterThan b = false) (h2 : b.GreaterThan d = false) :
    a.GreaterThan d = false := by
  have t := Version.Compare_ok.trans d b a hd hb ha
  have s1 := Version.Compare_ok.antisymm a b ha hb
  have s2 := Version.Compare_ok.antisymm b d hb hd
  have s3 := Version.Compare_ok.antisymm a d ha hd
  unfold Version.GreaterThan at *
  simp only [decide_eq_false_iff_not] at *
  omega

theorem less_ok (strict : Bool) (tags : List String) : LessOK less (collect strict tags) := by
  refine ⟨?_, ?_, ?_⟩
  · intro a ha
    exact GreaterThan_irrefl (collect_preOK ha)
  · intro a ha b hb d hd
    exact GreaterThan_trans (collect_preOK ha) (collect_preOK hb) (collect_preOK hd)
  · intro a ha b hb d hd
    exact GreaterThan_negtrans (collect_preOK ha) (collect_preOK hb) (collect_preOK hd)

theorem accepts_iff (current : Version) (major minor patch : Bool) (v : Version) :
    accepts current major (major || minor) (major || minor || patch) v = true ↔
      Acceptable current major minor patch v := by
  unfold accepts Acceptable Version.LessThanEqual isEqualMajor isEqualMinor
  by_cases h1 : v.Compare current ≤ 0
  · have : ¬ v.Compare current > 0 := by omega
    simp [h1, this]
  · have h1' : v.Compare current > 0 := by omega
    by_cases h2 : v.Prerelease = current.Prerelease
    · simp only [h1, h2, decide_False, bne_self_eq_false, Bool.or_self, Bool.false_eq_true,
        if_false, h1', true_and]
      by_cases hA : v.Major > current.Major <;> by_cases hB : v.Major = current.Major <;>
        by_cases hC : v.Minor > current.Minor <;> by_cases hD : v.Minor = current.Minor <;>
        by_cases hE : v.Patch > current.Patch <;>
        cases major <;> cases minor <;> cases patch <;> simp [hA, hB, hC, hD, hE]
    · simp [h2]

theorem scan_eq_empty {current : Version} {major minor patch : Bool} :
    ∀ {l : List VersionTag}, (∀ vt ∈ l, vt.Tag ≠ "") →
      (scan current major minor patch l = "" ↔
        ∀ vt ∈ l, accepts current major minor patch vt.Version = false)
  | [], _ => by simp [scan]
  | vt :: rest, hne => by
    have ih := @scan_eq_empty current major minor patch rest (fun x hx => hne x (by simp [hx]))
    unfold scan
    split_ifs with h
    · constructor
      · intro he
        exact absurd he (hne vt (by simp))
      · intro hall
        have := hall vt (by simp)
        rw [h] at this
        exact absurd this (by simp)
    · rw [ih]
      rw [Bool.not_eq_true] at h
      simp [h]

theorem scan_first {current : Version} {major minor patch : Bool} :
    ∀ {l : List VersionTag}, scan current major minor patch l ≠ "" →
      ∃ l1 vt l2, l = l1 ++ vt :: l2 ∧ scan current major minor patch l = vt.Tag ∧
        accepts current major minor patch vt.Version = true ∧
        ∀ x ∈ l1, accepts current major minor patch x.Version = false
  | [], h => absurd rfl h
  | vt :: rest, h => by
    unfold scan at h ⊢
    split_ifs at h ⊢ with ha
    · exact ⟨[], vt, rest, rfl, rfl, ha, by simp⟩
    · obtain ⟨l1, w, l2, e, hs, hw, hall⟩ := scan_first h
      refine ⟨vt :: l1, w, l2, by rw [e]; rfl, hs, hw, ?_⟩
      intro x hx
      rcases List.mem_cons.mp hx with rfl | hx
      · simpa using ha
      · exact hall x hx

/-- The selector, with the flags escalated and the early return folded in. -/
theorem selector_eq_scan
    {sortSlice : (VersionTag → VersionTag → Bool) → List VersionTag → List VersionTag}
    (hs : SortSliceContract sortSlice) (current : Version) (tags : List String)
    (major minor patch : Bool) :
    FindLatestVersion sortSlice current tags major minor patch =
      scan current major (major || minor) (major || minor || patch)
        (sortSlice less (collect (currentIsStrict current) tags)) := by
  have hflags : FindLatestVersion sortSlice current tags major minor patch =
      if (collect (currentIsStrict current) tags).length = 0 then ""
      else scan current major (major || minor) (major || minor || patch)
        (sortSlice less (collect (currentIsStrict current) tags)) := by
    unfold FindLatestVersion
    cases major <;> cases minor <;> cases patch <;> rfl
  rw [hflags]
  split_ifs with h
  · have hp := (hs less (collect (currentIsStrict current) tags)).1
    rw [List.length_eq_zero.mp h] at hp ⊢
    rw [List.Perm.eq_nil hp]
    rfl
  · rfl

/-- What a non-empty result of the selector is: the tag of an accepted
candidate that the sorted list holds after every rejected one before it. -/
theorem selector_first
    {sortSlice : (VersionTag → VersionTag → Bool) → List VersionTag → List VersionTag}
    (hs : SortSliceContract sortSlice) (current : Version) (tags : List String)
    (major minor patch : Bool)
    (hne : FindLatestVersion sortSlice current tags major minor patch ≠ "") :
    ∃ vr : Version,
      parseTag (currentIsStrict current)
        (FindLatestVersion sortSlice current tags major minor patch) = some vr ∧
      FindLatestVersion sortSlice current tags major minor patch ∈ tags ∧
      Acceptable current major minor patch vr ∧
      ∀ t ∈ tags, ∀ vt, parseTag (currentIsStrict current) t = some vt →
        Acceptable current major minor patch vt → vt.GreaterThan vr = false := by
  rw [selector_eq_scan hs] at hne ⊢
  obtain ⟨hperm, hsorted⟩ := hs less (collect (currentIsStrict current) tags)
  have hsorted := hsorted (less_ok _ _)
  obtain ⟨l1, w, l2, e, hscan, hw, hall⟩ := scan_first hne
  have hwmem : w ∈ collect (currentIsStrict current) tags :=
    hperm.mem_iff.mp (by rw [e]; simp)
  obtain ⟨hwt, hwp⟩ := mem_collect.mp hwmem
  rw [hscan]
  refine ⟨w.Version, hwp, hwt, (accepts_iff _ _ _ _ _).mp hw, ?_⟩
  intro t ht vt hvt hacc
  have hmem : (⟨vt, t⟩ : VersionTag) ∈ sortSlice less (collect (currentIsStrict current) tags) :=
    hperm.mem_iff.mpr (mem_collect.mpr ⟨ht, hvt⟩)
  rw [e] at hmem hsorted
  rcases List.mem_append.mp hmem with h1 | h1
  · have := hall _ h1
    rw [(accepts_iff _ _ _ _ _).mpr hacc] at this
    exact absurd this (by simp)
  · rcases List.mem_cons.mp h1 with h2 | h2
    · rw [← h2]
      exact GreaterThan_irrefl (parseTag_preOK hvt)
    · have hp := (List.pairwise_append.mp hsorted).2.1
      rw [List.pairwise_cons] at hp
      exact hp.1 _ h2

theorem selector_eq_empty
    {sortSlice : (VersionTag → VersionTag → Bool) → List VersionTag → List VersionTag}
    (hs : SortSliceContract sortSlice) (current : Version) (tags : List String)
    (major minor patch : Bool) :
    FindLatestVersion sortSlice current tags major minor patch = "" ↔
      ∀ t ∈ tags, ∀ v, parseTag (currentIsStrict current) t = some v →
        ¬ Acceptable current major minor patch v := by
  rw [selector_eq_scan hs]
  obtain ⟨hperm, -⟩ := hs less (collect (currentIsStrict current) tags)
  rw [scan_eq_empty]
  · constructor
    · intro h t ht v hv hacc
      have := h ⟨v, t⟩ (hperm.mem_iff.mpr (mem_collect.mpr ⟨ht, hv⟩))
      rw [(accepts_iff _ _ _ _ _).mpr hacc] at this
      exact absurd this (by simp)
    · intro h vt hvt
      obtain ⟨h1, h2⟩ := mem_collect.mp (hperm.mem_iff.mp hvt)
      have := h vt.Tag h1 vt.Version h2
      rw [← accepts_iff] at this
      simpa using this
  · intro vt hvt
    exact parseTag_ne_empty (mem_collect.mp (hperm.mem_iff.mp hvt)).2

theorem Compare_of_major_gt {a b : Version} (h : a.Major > b.Major) : a.Compare b = 1 := by
  unfold Version.Compare compareSegment
  have h1 : ¬ a.Major < b.Major := by omega
  simp [h, h1]

theorem parseTag_strict_shape {t : String} {v : Version} (h : parseTag true t = some v) :
    StrictShape t := by
  unfold parseTag at h
  simp only [if_true] at h
  exact (StrictNewVersion_some h).2.2

/-! ### The strict parser against the lenient one -/

theorem span_all {p : Char → Bool} (s : List Char) {a b : List Char}
    (h : s.span p = (a, b)) : ∀ x ∈ a, p x = true := by
  have := List.span_eq_take_drop p s
  rw [h] at this
  simp only [Prod.mk.injEq] at this
  intro x hx
  rw [this.1] at hx
  exact List.mem_takeWhile_imp hx

theorem span_append_of {p : Char → Bool} :
    ∀ (l r : List Char), (∀ x ∈ l, p x = true) → (∀ c t, r = c :: t → p c = false) →
      (l ++ r).span p = (l, r)
  | [], r, _, hr => by
    cases r with
    | nil => rfl
    | cons c t =>
      have := hr c t rfl
      simp [List.span_eq_take_drop, List.takeWhile, List.dropWhile, this]
  | x :: l, r, hl, hr => by
    have hx : p x = true := hl x (by simp)
    have ih := span_append_of l r (fun y hy => hl y (by simp [hy])) hr
    rw [List.span_eq_take_drop] at ih ⊢
    simp only [Prod.mk.injEq] at ih
    simp [List.takeWhile, List.dropWhile, hx, ih.1, ih.2]

theorem extract_cases (part : List Char) (sep : Char) :
    (Contains part sep = false ∧ extract part sep = ([], part)) ∨
      (Contains part sep = true ∧ ∃ e0 e1 : List Char, extract part sep = (e1, e0) ∧
        part = e0 ++ sep :: e1 ∧ ∀ x ∈ e0, x ≠ sep) := by
  by_cases hc : Contains part sep = true
  · right
    refine ⟨hc, ?_⟩
    rcases hsp : part.span (fun c => c != sep) with ⟨a, b⟩
    have hall := span_all part hsp
    have hpa := span_append part hsp
    cases b with
    | nil =>
      exfalso
      rw [List.append_nil] at hpa
      subst hpa
      unfold Contains at hc
      rw [List.any_eq_true] at hc
      obtain ⟨x, hx, hxs⟩ := hc
      have := hall x hx
      simp at hxs this
      exact this hxs
    | cons c rest =>
      have hcs : c = sep := by simpa using span_head part hsp
      subst hcs
      refine ⟨a, rest, ?_, hpa, ?_⟩
      · have h2 : SplitN part c 2 = [a, rest] := by
          unfold SplitN
          rw [hsp]
          rfl
        unfold extract
        rw [if_pos hc, h2]
      · intro x hx
        simpa using hall x hx
  · left
    rw [Bool.not_eq_true] at hc
    refine ⟨hc, ?_⟩
    unfold extract
    simp [hc]

theorem validatePrerelease_nil : validatePrerelease [] = false := by decide

theorem validateMetadata_nil : validateMetadata [] = false := by decide

/-- What a successful strict parse says of the text and of the version. -/
theorem StrictNewVersion_shape {t : String} {v : Version} (h : StrictNewVersion t = some v) :
    ∃ p0 p1 p2 pre meta : List Char,
      t.data = p0 ++ '.' :: (p1 ++ '.' :: (p2 ++ suffixText pre meta)) ∧
      ParseUint p0 = some v.major ∧ ParseUint p1 = some v.minor ∧ ParseUint p2 = some v.patch ∧
      (pre ≠ [] → validatePrerelease pre = true) ∧
      (meta ≠ [] → validateMetadata meta = true) ∧
      (∀ x ∈ pre, x ≠ '+') ∧
      v = ⟨v.major, v.minor, v.patch, String.mk pre, String.mk meta, t⟩ := by
  unfold StrictNewVersion at h
  split_ifs at h with h0
  split at h
  · rename_i p0 p1 p2 hsplit
    dsimp only at h
    split_ifs at h with hm hp hb
    split at h
    · rename_i major minor patch h1 h2 h3
      simp only [Option.some.injEq] at h
      subst h
      have hj := SplitN_join '.' 2 t.data
      rw [hsplit] at hj
      simp only [Join] at hj
      refine ⟨p0, p1, (extract (extract p2 '+').2 '-').2, (extract (extract p2 '+').2 '-').1,
        (extract p2 '+').1, ?_, h1, h2, h3, ?_, ?_, ?_, rfl⟩
      · rw [← hj]
        congr 3
        unfold suffixText
        rcases extract_cases p2 '+' with ⟨_, e1⟩ | ⟨c1, a0, a1, e1, ep, _⟩ <;>
          rcases extract_cases (extract p2 '+').2 '-' with ⟨_, e2⟩ | ⟨c2, b0, b1, e2, eq, _⟩
        · rw [e2, e1]
          simp
        · have hb1 : b1 ≠ [] := by
            rintro rfl
            rw [c2, e2] at hp
            simp [validatePrerelease_nil] at hp
          rw [e1] at eq
          rw [e2, e1]
          simp only [hb1, if_true, if_false, List.append_nil]
          exact congrArg _ eq
        · have ha1 : a1 ≠ [] := by
            rintro rfl
            rw [c1, e1] at hm
            simp [validateMetadata_nil] at hm
          rw [e2, e1]
          simp only [ha1, if_true, if_false, List.nil_append]
          exact congrArg _ ep
        · have hb1 : b1 ≠ [] := by
            rintro rfl
            rw [c2, e2] at hp
            simp [validatePrerelease_nil] at hp
          have ha1 : a1 ≠ [] := by
            rintro rfl
            rw [c1, e1] at hm
            simp [validateMetadata_nil] at hm
          rw [e1] at eq
          simp only at eq
          rw [e2, e1]
          simp only [hb1, ha1, if_false]
          rw [ep, eq]
          simp
      · intro hne
        rcases extract_cases (extract p2 '+').2 '-' with ⟨_, e2⟩ | ⟨c2, b0, b1, e2, _, _⟩
        · rw [e2] at hne
          exact absurd rfl hne
        · simpa [c2] using hp
      · intro hne
        rcases extract_cases p2 '+' with ⟨_, e1⟩ | ⟨c1, a0, a1, e1, _, _⟩
        · rw [e1] at hne
          exact absurd rfl hne
        · simpa [c1] using hm
      · intro x hx
        rcases extract_cases p2 '+' with ⟨c1, e1⟩ | ⟨c1, a0, a1, e1, ep, hno⟩ <;>
          rcases extract_cases (extract p2 '+').2 '-' with ⟨_, e2⟩ | ⟨c2, b0, b1, e2, eq, _⟩
        · rw [e2] at hx
          exact absurd hx (List.not_mem_nil x)
        · rw [e2] at hx
          rw [e1] at eq
          simp only at hx eq
          rintro rfl
          have : Contains p2 '+' = true := by
            rw [eq]
            unfold Contains
            rw [List.any_eq_true]
            exact ⟨'+', by simp [hx], by simp⟩
          rw [c1] at this
          exact absurd this (by simp)
        · rw [e2] at hx
          exact absurd hx (List.not_mem_nil x)
        · rw [e2] at hx
          rw [e1] at eq
          simp only at hx eq
          exact hno x (by rw [eq]; simp [hx])
    · exact absurd h (by simp)
  · exact absurd h (by simp)

theorem matchDotNum_eq {p r : List Char} (hp : Numeric p)
    (hr : ∀ c t, r = c :: t → isNum c = false) :
    matchDotNum ('.' :: (p ++ r)) = ('.' :: p, r) := by
  have hsp : (p ++ r).span isNum = (p, r) := span_append_of p r hp.2 hr
  unfold matchDotNum
  simp only [hsp]
  obtain ⟨hne, _⟩ := hp
  cases p with
  | nil => exact absurd rfl hne
  | cons c p => rfl

theorem suffixText_head (pre meta : List Char) :
    ∀ c t, suffixText pre meta = c :: t → isNum c = false := by
  intro c t h
  unfold suffixText at h
  by_cases h1 : pre = [] <;> by_cases h2 : meta = [] <;> simp [h1, h2] at h
  · rw [← h.1]
    decide
  · rw [← h.1]
    decide
  · rw [← h.1]
    decide

theorem dot_not_num (l : List Char) : ∀ c t, '.' :: l = c :: t → isNum c = false := by
  intro c t h
  simp only [List.cons.injEq] at h
  rw [← h.1]
  decide

theorem looseVersionRegex_shape {p0 p1 p2 pre meta : List Char} (h0 : Numeric p0)
    (h1 : Numeric p1) (h2 : Numeric p2) (hpre : pre ≠ [] → matchIdents pre = true)
    (hmeta : meta ≠ [] → matchIdents meta = true) (hplus : ∀ x ∈ pre, x ≠ '+') :
    looseVersionRegex (p0 ++ '.' :: (p1 ++ '.' :: (p2 ++ suffixText pre meta)))
      = some (p0, '.' :: p1, '.' :: p2, pre, meta) := by
  have hv : matchV (p0 ++ '.' :: (p1 ++ '.' :: (p2 ++ suffixText pre meta)))
      = p0 ++ '.' :: (p1 ++ '.' :: (p2 ++ suffixText pre meta)) := by
    obtain ⟨hne, hall⟩ := h0
    cases p0 with
    | nil => exact absurd rfl hne
    | cons c p =>
      have hc : isNum c = true := hall c (by simp)
      unfold matchV
      split
      · rename_i t heq
        simp only [List.cons_append, List.cons.injEq] at heq
        rw [heq.1] at hc
        exact absurd hc (by decide)
      · rfl
  have hsp0 : (p0 ++ '.' :: (p1 ++ '.' :: (p2 ++ suffixText pre meta))).span isNum
      = (p0, '.' :: (p1 ++ '.' :: (p2 ++ suffixText pre meta))) :=
    span_append_of p0 _ h0.2 (dot_not_num _)
  have hd1 := @matchDotNum_eq p1 ('.' :: (p2 ++ suffixText pre meta)) h1 (dot_not_num _)
  have hd2 := @matchDotNum_eq p2 (suffixText pre meta) h2 (suffixText_head pre meta)
  unfold looseVersionRegex
  obtain ⟨hne0, _⟩ := h0
  cases p0 with
  | nil => exact absurd rfl hne0
  | cons c0 q0 =>
    dsimp only
    rw [hv, hsp0]
    dsimp only
    rw [hd1]
    dsimp only
    rw [hd2]
    dsimp only
    unfold suffixText
    by_cases e1 : pre = [] <;> by_cases e2 : meta = []
    · simp [e1, e2]
    · simp [e1, e2, hmeta e2]
    · have hsp : pre.span (fun c => c != '+') = (pre, []) := by
        have := @span_append_of (fun c => c != '+') pre []
          (fun x hx => by simpa using hplus x hx) (fun c t h => by simp at h)
        simpa using this
      simp only [e1, e2, if_false, if_true, List.append_nil]
      simp only [hsp, hpre e1, if_true]
    · have hsp : (pre ++ '+' :: meta).span (fun c => c != '+') = (pre, '+' :: meta) :=
        @span_append_of (fun c => c != '+') pre ('+' :: meta)
          (fun x hx => by simpa using hplus x hx)
          (fun c t h => by
            simp only [List.cons.injEq] at h
            rw [← h.1]
            simp)
      simp only [e1, e2, if_false, List.cons_append]
      simp only [hsp, hpre e1, hmeta e2, Bool.and_self, if_true]

theorem isIdentChar_of_allowed {c : Char} (h : allowed.contains c = true) :
    isIdentChar c = true := by
  have hall : allowed.all isIdentChar = true := by decide
  exact List.all_eq_true.mp hall c (by simpa using h)

theorem isIdentChar_of_isNum {c : Char} (h : isNum c = true) : isIdentChar c = true := by
  unfold isIdentChar
  simp [h]

theorem matchIdents_of_validatePrerelease {p : List Char} (h : validatePrerelease p = true) :
    matchIdents p = true := by
  unfold validatePrerelease at h
  unfold matchIdents
  rw [List.all_eq_true] at h ⊢
  intro s hs
  have := h s hs
  by_cases h1 : s = []
  · simp [h1] at this
  · rw [if_neg h1] at this
    have hne : (s != []) = true := by simpa using h1
    rw [hne, Bool.true_and, List.all_eq_true]
    intro c hc
    by_cases h2 : containsOnly s num = true
    · rw [containsOnly_num] at h2
      exact isIdentChar_of_isNum (List.all_eq_true.mp h2 c hc)
    · rw [if_neg h2] at this
      unfold containsOnly at this
      exact isIdentChar_of_allowed (List.all_eq_true.mp this c hc)

theorem matchIdents_of_validateMetadata {p : List Char} (h : validateMetadata p = true) :
    matchIdents p = true := by
  unfold validateMetadata at h
  unfold matchIdents
  rw [List.all_eq_true] at h ⊢
  intro s hs
  have := h s hs
  by_cases h1 : s = []
  · simp [h1] at this
  · rw [if_neg h1] at this
    have hne : (s != []) = true := by simpa using h1
    rw [hne, Bool.true_and, List.all_eq_true]
    intro c hc
    unfold containsOnly at this
    exact isIdentChar_of_allowed (List.all_eq_true.mp this c hc)

/-- Every tag the strict parser accepts is accepted by the lenient parser,
with the same version. -/
theorem NewVersion_of_StrictNewVersion {t : String} {v : Version}
    (h : StrictNewVersion t = some v) : NewVersion t = some v := by
  obtain ⟨p0, p1, p2, pre, meta, ht, h0, h1, h2, hpre, hmeta, hplus, hv⟩ :=
    StrictNewVersion_shape h
  have hre := looseVersionRegex_shape (ParseUint_numeric h0) (ParseUint_numeric h1)
    (ParseUint_numeric h2) (fun e => matchIdents_of_validatePrerelease (hpre e))
    (fun e => matchIdents_of_validateMetadata (hmeta e)) hplus
  rw [← ht] at hre
  unfold NewVersion
  rw [hre]
  simp only [ne_eq, reduceCtorEq, not_false_eq_true, if_true, List.drop_succ_cons, List.drop_zero,
    h0, h1, h2]
  by_cases e1 : pre = [] <;> by_cases e2 : meta = []
  · simp [e1, e2]
    rw [hv, e1, e2]
  · simp [e1, e2, hmeta e2]
    rw [hv, e1]
  · simp [e1, e2, hpre e1]
    rw [hv, e2]
  · simp [e1, e2, hpre e1, hmeta e2]
    rw [hv]

theorem currentIsStrict_dots {current : Version} (h : currentIsStrict current = true) :
    2 ≤ dots current.Original := by
  unfold currentIsStrict at h
  have hj := SplitN_join '.' 2 current.Original.data
  match hs : SplitN current.Original.data '.' 3, h with
  | [a, b, c], _ =>
    rw [hs] at hj
    simp only [Join] at hj
    unfold dots
    rw [← hj]
    simp only [List.count_append, List.count_cons_self]
    omega

theorem parseTag_NewVersion {strict : Bool} {t : String} {v : Version}
    (h : parseTag strict t = some v) : NewVersion t = some v := by
  cases strict
  · simpa [parseTag] using h
  · exact NewVersion_of_StrictNewVersion (by simpa [parseTag] using h)

theorem parseTag_of_strict {strict : Bool} {t : String} {v : Version}
    (h : StrictNewVersion t = some v) : parseTag strict t = some v := by
  cases strict
  · simpa [parseTag] using NewVersion_of_StrictNewVersion h
  · simpa [parseTag] using h

/-! ### The cases of the repository's test suite -/

/-- The embedding gives the expected result on every case of
`TestFindLatestVersion` and on `TestSuffixMismatch`. -/
theorem runTest_cases :
    runTest "1.0.0" ["1.0.1", "1.0.2", "1.1.0"] false false true = some "1.0.2" ∧
    runTest "1.0.0" ["1.0.1", "1.1.0", "1.2.0"] false true false = some "1.2.0" ∧
    runTest "1.0.0" ["1.0.1", "1.1.0", "2.0.0", "3.0.0"] true false false = some "3.0.0" ∧
    runTest "1.0.0" ["1.0.1", "1.1.0", "2.0.0", "3.0.0", "3.1.2"] true false false
      = some "3.1.2" ∧
    runTest "1.0.0" ["0.9.9", "1.0.0"] true true true = some "" ∧
    runTest "1.0.0-beta" ["1.0.1-beta", "1.1.0-beta", "1.2.0"] false false true
      = some "1.0.1-beta" ∧
    runTest "1.0.0-beta" ["1.0.1-alpha", "1.1.0-beta", "1.1.0"] false false true = some "" ∧
    runTest "1.0.0" ["2.0.0-alpha", "2.0.0-beta", "2.0.0"] true false false = some "2.0.0" ∧
    runTest "1.0.0" ["1.1.0-alpha", "1.1.0-beta", "1.1.0"] false true false = some "1.1.0" ∧
    runTest "1.0.0" ["1.0.1-alpha", "1.0.1-beta", "1.0.1"] false false true = some "1.0.1" ∧
    runTest "1.0.0" ["1.0.1", "1.1.0", "2.0.0", "3.0.0", "4.0.0", "5.0.0", "6.0.0", "7.0.0",
      "8.0.0", "9.0.0", "10.0.0"] true false false = some "10.0.0" ∧
    runTest "1.0" ["1.0", "1.1", "1.2", "2.0"] false true false = some "1.2" ∧
    runTest "1.0" ["1.0", "1.1", "1.2", "2.0"] true false false = some "2.0" ∧
    runTest "1.0.0" ["1.0", "1.0.0", "1.1", "1.1.0", "1.1.1"] false true false
      = some "1.1.1" ∧
    runTest "1.0.0" ["1.0", "1.0.0", "1.0.1", "1.1"] false true false = some "1.0.1" := by
  decide

/-! ### The claims -/

/-- Claim C1 at the failing input: the current version `1.0-beta.1` is not a
strict version (the strict parser refuses it), so its candidates are to be
parsed leniently.  The tag `1.2-beta.1` parses leniently, passes every filter
under the minor policy and is greater than `1.1.0-beta.1`; yet the selector,
whatever the sort, returns `1.1.0-beta.1`, because the dot inside the
pre-release suffix makes `currentIsStrict` true and `1.2-beta.1` is dropped
by the strict parser. -/
theorem FindLatestVersion_not_maximal_dotted_suffix :
    NewVersion "1.0-beta.1" = some ⟨1, 0, 0, "beta.1", "", "1.0-beta.1"⟩ ∧
    StrictNewVersion "1.0-beta.1" = none ∧
    currentIsStrict ⟨1, 0, 0, "beta.1", "", "1.0-beta.1"⟩ = true ∧
    NewVersion "1.1.0-beta.1" = some ⟨1, 1, 0, "beta.1", "", "1.1.0-beta.1"⟩ ∧
    NewVersion "1.2-beta.1" = some ⟨1, 2, 0, "beta.1", "", "1.2-beta.1"⟩ ∧
    StrictNewVersion "1.2-beta.1" = none ∧
    Acceptable ⟨1, 0, 0, "beta.1", "", "1.0-beta.1"⟩ false true false
      ⟨1, 2, 0, "beta.1", "", "1.2-beta.1"⟩ ∧
    Version.GreaterThan ⟨1, 2, 0, "beta.1", "", "1.2-beta.1"⟩
      ⟨1, 1, 0, "beta.1", "", "1.1.0-beta.1"⟩ = true ∧
    FindLatestVersion insertionSort ⟨1, 0, 0, "beta.1", "", "1.0-beta.1"⟩
      ["1.1.0-beta.1", "1.2-beta.1"] false true false = "1.1.0-beta.1" ∧
    ∀ sortSlice : (VersionTag → VersionTag → Bool) → List VersionTag → List VersionTag,
      SortSliceContract sortSlice →
      FindLatestVersion sortSlice ⟨1, 0, 0, "beta.1", "", "1.0-beta.1"⟩
        ["1.1.0-beta.1", "1.2-beta.1"] false true false = "1.1.0-beta.1" := by
  refine ⟨by decide, by decide, by decide, by decide, by decide, by decide,
    (accepts_iff _ false true false _).mp (by decide), by decide, by decide, ?_⟩
  intro sortSlice hs
  have hne : FindLatestVersion sortSlice ⟨1, 0, 0, "beta.1", "", "1.0-beta.1"⟩
      ["1.1.0-beta.1", "1.2-beta.1"] false true false ≠ "" := by
    intro h0
    rw [selector_eq_empty hs] at h0
    exact h0 "1.1.0-beta.1" (by simp) ⟨1, 1, 0, "beta.1", "", "1.1.0-beta.1"⟩ (by decide)
      ((accepts_iff _ false true false _).mp (by decide))
  obtain ⟨vr, hp, hmem, _, _⟩ := selector_first hs _ _ _ _ _ hne
  rcases List.mem_cons.mp hmem with h | h
  · exact h
  · rw [List.mem_singleton] at h
    rw [h] at hp
    have hnone : parseTag (currentIsStrict ⟨1, 0, 0, "beta.1", "", "1.0-beta.1"⟩) "1.2-beta.1"
        = none := by decide
    rw [hnone] at hp
    exact absurd hp (by simp)

/-- Claim C2 at the failing input: for the non-strict current `1.0-beta.1` the
tag `2.0-beta.1` parses leniently and passes every filter under the major
policy, so the result should not be empty; yet the selector, whatever the
sort, returns the empty string, because the dot inside the pre-release suffix
makes `currentIsStrict` true and no tag of the list survives the strict
parser. -/
theorem FindLatestVersion_empty_dotted_suffix :
    NewVersion "1.0-beta.1" = some ⟨1, 0, 0, "beta.1", "", "1.0-beta.1"⟩ ∧
    StrictNewVersion "1.0-beta.1" = none ∧
    currentIsStrict ⟨1, 0, 0, "beta.1", "", "1.0-beta.1"⟩ = true ∧
    "2.0-beta.1" ∈ ["1.0-beta.1", "1.1-beta.1", "2.0-beta.1"] ∧
    NewVersion "2.0-beta.1" = some ⟨2, 0, 0, "beta.1", "", "2.0-beta.1"⟩ ∧
    Acceptable ⟨1, 0, 0, "beta.1", "", "1.0-beta.1"⟩ true false false
      ⟨2, 0, 0, "beta.1", "", "2.0-beta.1"⟩ ∧
    ∀ sortSlice : (VersionTag → VersionTag → Bool) → List VersionTag → List VersionTag,
      FindLatestVersion sortSlice ⟨1, 0, 0, "beta.1", "", "1.0-beta.1"⟩
        ["1.0-beta.1", "1.1-beta.1", "2.0-beta.1"] true false false = "" :=
  ⟨by decide, by decide, by decide, by decide, by decide,
    (accepts_iff _ true false false _).mp (by decide), fun _ => rfl⟩

/-- Claim C3 as stated is false: with the major flag set, current `1.0.0` and the
tags `1.0.1` and `1.1.0`, the selector returns `1.1.0`, whose major component
equals the current one. -/
theorem FindLatestVersion_major_counterexample :
    ¬ (∀ (sortSlice : (VersionTag → VersionTag → Bool) → List VersionTag → List VersionTag),
        SortSliceContract sortSlice →
        ∀ (current : Version) (tags : List String) (minor patch : Bool) (r : String)
          (vr : Version),
          FindLatestVersion sortSlice current tags true minor patch = r → r ≠ "" →
          parseTag (currentIsStrict current) r = some vr → vr.Major > current.Major) := by
  intro h
  have h1 := h insertionSort insertionSort_contract ⟨1, 0, 0, "", "", "1.0.0"⟩
    ["1.0.1", "1.1.0"] false false "1.1.0" ⟨1, 1, 0, "", "", "1.1.0"⟩
    (by decide) (by decide) (by decide)
  exact absurd h1 (by decide)

/-- Claim C3, amended: with the major flag set, a non-empty result parses (in
the lenient mode, hence in either), is strictly newer than current and its
major component is at least the current one.  It equals the current one only
on the strength of a higher minor or patch, and only when no tag of the list
that parses strictly and carries the pre-release qualifier of current has a
greater major component; when the original text of current has at most one
dot, the same holds of every tag that parses leniently. -/
theorem FindLatestVersion_major_flag
    (sortSlice : (VersionTag → VersionTag → Bool) → List VersionTag → List VersionTag)
    (hs : SortSliceContract sortSlice) (current : Version) (tags : List String)
    (minor patch : Bool) (r : String)
    (hr : FindLatestVersion sortSlice current tags true minor patch = r) (hne : r ≠ "") :
    ∃ vr : Version, NewVersion r = some vr ∧
      vr.Compare current > 0 ∧ vr.Major ≥ current.Major ∧
      (vr.Major = current.Major →
        (vr.Minor > current.Minor ∨
          (vr.Minor = current.Minor ∧ vr.Patch > current.Patch)) ∧
        (∀ t ∈ tags, ∀ vt, StrictNewVersion t = some vt →
          vt.Prerelease = current.Prerelease → vt.Major ≤ current.Major) ∧
        (dots current.Original ≤ 1 →
          ∀ t ∈ tags, ∀ vt, NewVersion t = some vt →
            vt.Prerelease = current.Prerelease → vt.Major ≤ current.Major)) := by
  subst hr
  obtain ⟨vr, hp, _, hacc, hmax⟩ := selector_first hs current tags true minor patch hne
  have key : ∀ t ∈ tags, ∀ vt, parseTag (currentIsStrict current) t = some vt →
      vt.Prerelease = current.Prerelease → vr.Major = current.Major →
      vt.Major ≤ current.Major := by
    intro t ht vt hvt hpre heq
    by_contra hgt
    have hgt' : vt.Major > current.Major := by omega
    have hacc' : Acceptable current true minor patch vt :=
      ⟨by rw [Compare_of_major_gt hgt']; decide, hpre, Or.inl ⟨rfl, hgt'⟩⟩
    have := hmax t ht vt hvt hacc'
    unfold Version.GreaterThan at this
    rw [Compare_of_major_gt (by omega)] at this
    exact absurd this (by decide)
  refine ⟨vr, parseTag_NewVersion hp, hacc.1, ?_, ?_⟩
  · rcases hacc.2.2 with h | h | h <;> omega
  · intro heq
    refine ⟨?_, ?_, ?_⟩
    · rcases hacc.2.2 with h | h | h
      · omega
      · exact Or.inl h.2.2
      · exact Or.inr h.2.2
    · intro t ht vt hvt hpre
      exact key t ht vt (parseTag_of_strict hvt) hpre heq
    · intro hdots t ht vt hvt hpre
      have hmode : currentIsStrict current = false := by
        by_contra hc
        rw [Bool.not_eq_false] at hc
        have := currentIsStrict_dots hc
        omega
      exact key t ht vt (by rw [hmode]; simpa [parseTag] using hvt) hpre heq

/-- The theorem `FindLatestVersion_major_flag` applied to a concrete input,
with the insertion sort in the place of `sort.Slice`. -/
theorem FindLatestVersion_major_flag_witness :
    SortSliceContract (insertionSort : (VersionTag → VersionTag → Bool) → _ → _) ∧
    FindLatestVersion insertionSort ⟨1, 0, 0, "", "", "1.0"⟩ ["1.0.5", "1.1"]
      true false false = "1.1" ∧
    ∃ vr : Version, NewVersion "1.1" = some vr ∧
      vr.Compare ⟨1, 0, 0, "", "", "1.0"⟩ > 0 ∧
      vr.Major ≥ Version.Major ⟨1, 0, 0, "", "", "1.0"⟩ ∧
      (vr.Major = Version.Major ⟨1, 0, 0, "", "", "1.0"⟩ →
        (vr.Minor > Version.Minor ⟨1, 0, 0, "", "", "1.0"⟩ ∨
          (vr.Minor = Version.Minor ⟨1, 0, 0, "", "", "1.0"⟩ ∧
            vr.Patch > Version.Patch ⟨1, 0, 0, "", "", "1.0"⟩)) ∧
        (∀ t ∈ ["1.0.5", "1.1"], ∀ vt, StrictNewVersion t = some vt →
          vt.Prerelease = Version.Prerelease ⟨1, 0, 0, "", "", "1.0"⟩ →
          vt.Major ≤ Version.Major ⟨1, 0, 0, "", "", "1.0"⟩) ∧
        (dots (Version.Original ⟨1, 0, 0, "", "", "1.0"⟩) ≤ 1 →
          ∀ t ∈ ["1.0.5", "1.1"], ∀ vt, NewVersion t = some vt →
            vt.Prerelease = Version.Prerelease ⟨1, 0, 0, "", "", "1.0"⟩ →
            vt.Major ≤ Version.Major ⟨1, 0, 0, "", "", "1.0"⟩)) :=
  ⟨insertionSort_contract, by decide,
    FindLatestVersion_major_flag insertionSort insertionSort_contract
      ⟨1, 0, 0, "", "", "1.0"⟩ ["1.0.5", "1.1"] false false "1.1"
      (by decide) (by decide)⟩

/-- Claim C4 at the failing input: the current version `1.0-beta.1` has two numeric
components, so it is not a strict version, yet the dot inside its pre-release
suffix makes `currentIsStrict` true; the tag `1.1-beta.1`, which the lenient
parser accepts and which passes every filter under the minor policy, is then
parsed strictly, dropped, and the selector returns the empty string whatever
the sort. -/
theorem FindLatestVersion_dotted_suffix_current :
    NewVersion "1.0-beta.1" = some ⟨1, 0, 0, "beta.1", "", "1.0-beta.1"⟩ ∧
    StrictNewVersion "1.0-beta.1" = none ∧
    currentIsStrict ⟨1, 0, 0, "beta.1", "", "1.0-beta.1"⟩ = true ∧
    NewVersion "1.1-beta.1" = some ⟨1, 1, 0, "beta.1", "", "1.1-beta.1"⟩ ∧
    accepts ⟨1, 0, 0, "beta.1", "", "1.0-beta.1"⟩ false true true
      ⟨1, 1, 0, "beta.1", "", "1.1-beta.1"⟩ = true ∧
    ∀ sortSlice : (VersionTag → VersionTag → Bool) → List VersionTag → List VersionTag,
      FindLatestVersion sortSlice ⟨1, 0, 0, "beta.1", "", "1.0-beta.1"⟩ ["1.1-beta.1"]
        false true false = "" :=
  ⟨by decide, by decide, by decide, by decide, by decide, fun _ => rfl⟩

/-- Claim C5: when the original text of the current version has three dot-separated
components, a non-empty result of `FindLatestVersion` is a strict semantic
version: the strict parser accepts it and it has exactly three numeric
components; the two-component tag `1.1` is never returned. -/
theorem FindLatestVersion_strict_result
    (sortSlice : (VersionTag → VersionTag → Bool) → List VersionTag → List VersionTag)
    (hs : SortSliceContract sortSlice) (current : Version) (tags : List String)
    (major minor patch : Bool) (r : String)
    (hstrict : currentIsStrict current = true)
    (hr : FindLatestVersion sortSlice current tags major minor patch = r) (hne : r ≠ "") :
    (StrictNewVersion r).isSome = true ∧ StrictShape r ∧ r ≠ "1.1" := by
  subst hr
  obtain ⟨vr, hp, _, _, _⟩ := selector_first hs current tags major minor patch hne
  rw [hstrict] at hp
  have hsome : StrictNewVersion (FindLatestVersion sortSlice current tags major minor patch)
      = some vr := by
    simpa [parseTag] using hp
  refine ⟨by rw [hsome]; rfl, parseTag_strict_shape hp, ?_⟩
  intro h11
  have hnone : StrictNewVersion "1.1" = none := by decide
  rw [h11, hnone] at hsome
  exact absurd hsome (by simp)

/-- The theorem `FindLatestVersion_strict_result` applied to a concrete input, with the insertion sort
in the place of `sort.Slice`. -/
theorem FindLatestVersion_strict_result_witness :
    SortSliceContract (insertionSort : (VersionTag → VersionTag → Bool) → _ → _) ∧
    currentIsStrict ⟨1, 0, 0, "", "", "1.0.0"⟩ = true ∧
    FindLatestVersion insertionSort ⟨1, 0, 0, "", "", "1.0.0"⟩ ["1.0", "1.0.0", "1.0.1", "1.1"]
      false true false = "1.0.1" ∧
    (StrictNewVersion "1.0.1").isSome = true ∧ StrictShape "1.0.1" ∧ "1.0.1" ≠ "1.1" :=
  ⟨insertionSort_contract, by decide, by decide,
    FindLatestVersion_strict_result insertionSort insertionSort_contract
      ⟨1, 0, 0, "", "", "1.0.0"⟩ ["1.0", "1.0.0", "1.0.1", "1.1"] false true false "1.0.1"
      (by decide) (by decide) (by decide)⟩

/-- Claim C6: a non-empty result of `FindLatestVersion` carries exactly the
pre-release qualifier of the current version: both are empty or both are the
same non-empty string. -/
theorem FindLatestVersion_same_prerelease
    (sortSlice : (VersionTag → VersionTag → Bool) → List VersionTag → List VersionTag)
    (hs : SortSliceContract sortSlice) (current : Version) (tags : List String)
    (major minor patch : Bool) (r : String)
    (hr : FindLatestVersion sortSlice current tags major minor patch = r) (hne : r ≠ "") :
    ∃ vr : Version, parseTag (currentIsStrict current) r = some vr ∧
      vr.Prerelease = current.Prerelease ∧
      (current.Prerelease = "" ↔ vr.Prerelease = "") := by
  subst hr
  obtain ⟨vr, hp, _, hacc, _⟩ := selector_first hs current tags major minor patch hne
  exact ⟨vr, hp, hacc.2.1, by rw [hacc.2.1]⟩

/-- The theorem `FindLatestVersion_same_prerelease` applied to a concrete input, with the insertion sort
in the place of `sort.Slice`. -/
theorem FindLatestVersion_same_prerelease_witness :
    SortSliceContract (insertionSort : (VersionTag → VersionTag → Bool) → _ → _) ∧
    FindLatestVersion insertionSort ⟨1, 0, 0, "beta", "", "1.0.0-beta"⟩
      ["1.0.1-beta", "1.1.0-beta", "1.2.0"] false false true = "1.0.1-beta" ∧
    ∃ vr : Version,
      parseTag (currentIsStrict ⟨1, 0, 0, "beta", "", "1.0.0-beta"⟩) "1.0.1-beta" = some vr ∧
      vr.Prerelease = Version.Prerelease ⟨1, 0, 0, "beta", "", "1.0.0-beta"⟩ ∧
      (Version.Prerelease ⟨1, 0, 0, "beta", "", "1.0.0-beta"⟩ = "" ↔ vr.Prerelease = "") :=
  ⟨insertionSort_contract, by decide,
    FindLatestVersion_same_prerelease insertionSort insertionSort_contract
      ⟨1, 0, 0, "beta", "", "1.0.0-beta"⟩ ["1.0.1-beta", "1.1.0-beta", "1.2.0"]
      false false true "1.0.1-beta" (by decide) (by decide)⟩

/-- Claim C7: the policy flags escalate.  With the major flag set the result does
not depend on the minor and patch flags, and with the major flag clear and
the minor flag set it does not depend on the patch flag. -/
theorem FindLatestVersion_escalation
    (sortSlice : (VersionTag → VersionTag → Bool) → List VersionTag → List VersionTag)
    (current : Version) (tags : List String) (minor patch : Bool) :
    FindLatestVersion sortSlice current tags true minor patch =
      FindLatestVersion sortSlice current tags true true true ∧
    FindLatestVersion sortSlice current tags false true patch =
      FindLatestVersion sortSlice current tags false true true := by
  constructor
  · cases minor <;> cases patch <;> rfl
  · cases patch <;> rfl

/-- Claim C8: the policy bounds the change.  With the major flag clear a non-empty
result has the major component of current and is strictly newer than current;
with the minor flag clear as well it also has the minor component of current
and a strictly greater patch component. -/
theorem FindLatestVersion_policy_bound
    (sortSlice : (VersionTag → VersionTag → Bool) → List VersionTag → List VersionTag)
    (hs : SortSliceContract sortSlice) (current : Version) (tags : List String)
    (minor patch : Bool) (r : String)
    (hr : FindLatestVersion sortSlice current tags false minor patch = r) (hne : r ≠ "") :
    ∃ vr : Version, parseTag (currentIsStrict current) r = some vr ∧
      vr.Major = current.Major ∧ vr.Compare current > 0 ∧
      (minor = false → vr.Minor = current.Minor ∧ vr.Patch > current.Patch) := by
  subst hr
  obtain ⟨vr, hp, _, hacc, _⟩ := selector_first hs current tags false minor patch hne
  obtain ⟨hnew, _, hpol⟩ := hacc
  refine ⟨vr, hp, ?_, hnew, ?_⟩
  · rcases hpol with h | h | h
    · exact absurd h.1 (by simp)
    · exact h.2.1
    · exact h.2.1
  · intro hm
    subst hm
    rcases hpol with h | h | h
    · exact absurd h.1 (by simp)
    · exact absurd h.1 (by simp)
    · exact ⟨h.2.2.1, h.2.2.2⟩

/-- The theorem `FindLatestVersion_policy_bound` applied to a concrete input, with the insertion sort
in the place of `sort.Slice`. -/
theorem FindLatestVersion_policy_bound_witness :
    SortSliceContract (insertionSort : (VersionTag → VersionTag → Bool) → _ → _) ∧
    FindLatestVersion insertionSort ⟨1, 0, 0, "", "", "1.0.0"⟩ ["1.0.1", "1.0.2", "1.1.0"]
      false false true = "1.0.2" ∧
    ∃ vr : Version, parseTag (currentIsStrict ⟨1, 0, 0, "", "", "1.0.0"⟩) "1.0.2" = some vr ∧
      vr.Major = Version.Major ⟨1, 0, 0, "", "", "1.0.0"⟩ ∧
      vr.Compare ⟨1, 0, 0, "", "", "1.0.0"⟩ > 0 ∧
      (false = false → vr.Minor = Version.Minor ⟨1, 0, 0, "", "", "1.0.0"⟩ ∧
        vr.Patch > Version.Patch ⟨1, 0, 0, "", "", "1.0.0"⟩) :=
  ⟨insertionSort_contract, by decide,
    FindLatestVersion_policy_bound insertionSort insertionSort_contract
      ⟨1, 0, 0, "", "", "1.0.0"⟩ ["1.0.1", "1.0.2", "1.1.0"] false true "1.0.2"
      (by decide) (by decide)⟩

/-- Claim C9 at the failing input: an image reference with a registry port has two
colons; `getNameAndTag` keeps the first two pieces and drops the third, so
name, colon and tag do not give the value back. -/
theorem getNameAndTag_two_colons :
    getNameAndTag "localhost:5000/app:1.2.3" = ("localhost", "5000/app") ∧
    (getNameAndTag "localhost:5000/app:1.2.3").1 ++ ":" ++
      (getNameAndTag "localhost:5000/app:1.2.3").2 ≠ "localhost:5000/app:1.2.3" := by
  decide

/-- Claim C10: the result of `FindLatestVersion` does not depend on the order of
the tags.  For two tag lists that are permutations of each other the two
results are both empty, or both non-empty with parsed versions that compare
equal. -/
theorem FindLatestVersion_order_independent
    (sortSlice : (VersionTag → VersionTag → Bool) → List VersionTag → List VersionTag)
    (hs : SortSliceContract sortSlice) (current : Version) (tags₁ tags₂ : List String)
    (major minor patch : Bool) (hperm : tags₁.Perm tags₂) :
    (FindLatestVersion sortSlice current tags₁ major minor patch = "" ∧
      FindLatestVersion sortSlice current tags₂ major minor patch = "") ∨
    (FindLatestVersion sortSlice current tags₁ major minor patch ≠ "" ∧
      FindLatestVersion sortSlice current tags₂ major minor patch ≠ "" ∧
      ∃ v₁ v₂ : Version,
        parseTag (currentIsStrict current)
          (FindLatestVersion sortSlice current tags₁ major minor patch) = some v₁ ∧
        parseTag (currentIsStrict current)
          (FindLatestVersion sortSlice current tags₂ major minor patch) = some v₂ ∧
        v₁.Compare v₂ = 0) := by
  by_cases h1 : FindLatestVersion sortSlice current tags₁ major minor patch = ""
  · left
    refine ⟨h1, ?_⟩
    rw [selector_eq_empty hs] at h1 ⊢
    intro t ht
    exact h1 t (hperm.mem_iff.mpr ht)
  · right
    have h2 : FindLatestVersion sortSlice current tags₂ major minor patch ≠ "" := by
      intro h2
      apply h1
      rw [selector_eq_empty hs] at h2 ⊢
      intro t ht
      exact h2 t (hperm.mem_iff.mp ht)
    obtain ⟨v₁, hp1, hm1, ha1, hmax1⟩ :=
      selector_first hs current tags₁ major minor patch h1
    obtain ⟨v₂, hp2, hm2, ha2, hmax2⟩ :=
      selector_first hs current tags₂ major minor patch h2
    refine ⟨h1, h2, v₁, v₂, hp1, hp2, ?_⟩
    have g1 := hmax1 _ (hperm.mem_iff.mpr hm2) v₂ hp2 ha2
    have g2 := hmax2 _ (hperm.mem_iff.mp hm1) v₁ hp1 ha1
    have hanti := Version.Compare_ok.antisymm v₁ v₂ (parseTag_preOK hp1) (parseTag_preOK hp2)
    unfold Version.GreaterThan at g1 g2
    simp only [decide_eq_false_iff_not] at g1 g2
    omega

/-- The theorem `FindLatestVersion_order_independent` applied to a concrete input, with the insertion sort
in the place of `sort.Slice`. -/
theorem FindLatestVersion_order_independent_witness :
    SortSliceContract (insertionSort : (VersionTag → VersionTag → Bool) → _ → _) ∧
    ["1.2", "1.2.0", "1.1"].Perm ["1.2.0", "1.1", "1.2"] ∧
    FindLatestVersion insertionSort ⟨1, 0, 0, "", "", "1.0"⟩ ["1.2", "1.2.0", "1.1"]
      false true false = "1.2" ∧
    FindLatestVersion insertionSort ⟨1, 0, 0, "", "", "1.0"⟩ ["1.2.0", "1.1", "1.2"]
      false true false = "1.2.0" ∧
    ((FindLatestVersion insertionSort ⟨1, 0, 0, "", "", "1.0"⟩ ["1.2", "1.2.0", "1.1"]
        false true false = "" ∧
      FindLatestVersion insertionSort ⟨1, 0, 0, "", "", "1.0"⟩ ["1.2.0", "1.1", "1.2"]
        false true false = "") ∨
    (FindLatestVersion insertionSort ⟨1, 0, 0, "", "", "1.0"⟩ ["1.2", "1.2.0", "1.1"]
        false true false ≠ "" ∧
      FindLatestVersion insertionSort ⟨1, 0, 0, "", "", "1.0"⟩ ["1.2.0", "1.1", "1.2"]
        false true false ≠ "" ∧
      ∃ v₁ v₂ : Version,
        parseTag (currentIsStrict ⟨1, 0, 0, "", "", "1.0"⟩)
          (FindLatestVersion insertionSort ⟨1, 0, 0, "", "", "1.0"⟩ ["1.2", "1.2.0", "1.1"]
            false true false) = some v₁ ∧
        parseTag (currentIsStrict ⟨1, 0, 0, "", "", "1.0"⟩)
          (FindLatestVersion insertionSort ⟨1, 0, 0, "", "", "1.0"⟩ ["1.2.0", "1.1", "1.2"]
            false true false) = some v₂ ∧
        v₁.Compare v₂ = 0)) :=
  ⟨insertionSort_contract, by decide, by decide, by decide,
    FindLatestVersion_order_independent insertionSort insertionSort_contract
      ⟨1, 0, 0, "", "", "1.0"⟩ ["1.2", "1.2.0", "1.1"] ["1.2.0", "1.1", "1.2"]
      false true false (by decide)⟩

end ComposeCheckUpdates
